import Mathlib

/-! EOS physical memory manager (`src/kernel/mm/phys_memory.c`)

A shallow embedding of the block allocator and the statements proved about it.

Conventions of the embedding.

* The global variables of the module form one record, `PmmState`, which every
  operation receives and returns.
* `phys_memory_bitmap` is a pointer to `uint32_t`.  The record holds the address it
  contains (`phys_memory_bitmap_addr`) and the memory it points at
  (`phys_memory_bitmap`): the function from word offset `w ≥ 0` to the 32-bit word
  stored at that address plus `4 * w`.  `uint32_t` values are natural numbers and
  every `uint32_t` operation that can leave the range is reduced modulo `2 ^ 32`
  where the C code computes it.  That the variables hold 32-bit values at all is
  the predicate `PmmState.WF`.
* Block indices are kept in C `int` variables and are modelled as `Int`.  A value
  that is converted to `int` goes through `toInt32`, the two's complement reading of
  its low 32 bits, and `int` arithmetic that leaves the range keeps the low 32
  bits (`wrapInt32`), as the 32-bit x86 target of the kernel computes it.  An
  index of `2 ^ 31` or more is therefore negative when it reaches `bitmap_set`,
  `bitmap_unset` or `bitmap_test`.
* With a negative index these three functions address memory in front of the array
  (C division truncates, so the word offset is negative or the shift count is).
  That memory is not part of the record: a write there leaves the words of the array
  as they are, and for a read the model has no value and answers `false`.
* `PHYS_BLOCK_SIZE` comes from `kernel/mm/phys_memory.h`, which is not part of
  the sources at hand; it is the parameter `bs` of the operations that use it.
* The loop counters `int num_blocks` of `pmm_alloc_chunk` and `int n` of
  `pmm_parse_memory_map` decide by their sign how often the loop runs; they are
  converted with `toInt32` as well.
* The boot memory map lives in memory that the module only reads: `mem p` is
  the `multiboot_memory_map_entry` record stored at byte address `p`; the map is
  taken to lie apart from the words of the bitmap.  The constants of the missing
  headers that `pmm_init` uses, and the two `sizeof` values of the record type, are
  the fields of `BootConfig`.
* `pmm_free_available_memory` walks the map by the `size` field of each record
  and need not terminate; its model takes the number of loop iterations it may
  use (`fuel`) and returns `none` when they do not suffice.
* `memset` and `memcpy` belong to the kernel's C library, which is not part of the
  sources either; they are the usual byte fill and byte copy on little-endian
  32-bit words.  The bytes that `pmm_test` copies to the block it was given are
  stored into the words of the array wherever they fall on them.
* Console output (`tty_printf`) is not part of the allocator state.
-/

namespace EOS

/-- The global variables of `phys_memory.c`. -/
structure PmmState where
  phys_memory_bitmap : Nat → Nat
  phys_memory_bitmap_addr : Nat
  phys_block_count : Nat
  phys_used_block_count : Nat
  kernel_phys_map_start : Nat
  kernel_phys_map_end : Nat
  phys_installed_memory_size : Nat
  phys_available_memory_size : Nat

/-- The typing of the state: bitmap words and both block counters are `uint32_t`. -/
def PmmState.WF (s : PmmState) : Prop :=
  (∀ w, s.phys_memory_bitmap w < 2 ^ 32) ∧
  s.phys_block_count < 2 ^ 32 ∧ s.phys_used_block_count < 2 ^ 32

/-- The C conversion of a value to `int`: the low 32 bits in two's complement. -/
def toInt32 (n : Nat) : Int :=
  if n % 2 ^ 32 < 2 ^ 31 then ((n % 2 ^ 32 : Nat) : Int)
  else ((n % 2 ^ 32 : Nat) : Int) - 2 ^ 32

/-- The `int` that has the low 32 bits of `z`: what `int` arithmetic yields when the
exact result `z` leaves the range, and what a sum of an `int` and a `uint32_t` is when
it is passed on as an `int`. -/
def wrapInt32 (z : Int) : Int :=
  toInt32 (z % 2 ^ 32).toNat

/-- Source: `phys_memory_bitmap[bit / 32] |= (1 << (bit % 32))`.  For a negative
`bit` the word offset `bit / 32` or the shift count `bit % 32` is negative: the access
lies in front of the array (or is undefined) and the words of the array stay as they
are. -/
def bitmap_set (bm : Nat → Nat) (bit : Int) : Nat → Nat :=
  if 0 ≤ bit then
    fun w => if w = bit.toNat / 32 then bm w ||| (1 <<< (bit.toNat % 32)) else bm w
  else bm

/-- Source: `phys_memory_bitmap[bit / 32] &= ~(1 << (bit % 32))`; the complement is
taken in 32 bits.  For a negative `bit` the access lies in front of the array (or is
undefined) and the words of the array stay as they are. -/
def bitmap_unset (bm : Nat → Nat) (bit : Int) : Nat → Nat :=
  if 0 ≤ bit then
    fun w =>
      if w = bit.toNat / 32 then bm w &&& (0xFFFFFFFF ^^^ (1 <<< (bit.toNat % 32))) else bm w
  else bm

/-- Source: `return phys_memory_bitmap[bit / 32] & (1 << (bit % 32))`, as a `bool`.
For a negative `bit` the word read lies in front of the array (or the shift is
undefined); the record has no value for it and the answer is `false`. -/
def bitmap_test (bm : Nat → Nat) (bit : Int) : Bool :=
  if 0 ≤ bit then bm (bit.toNat / 32) &&& (1 <<< (bit.toNat % 32)) != 0 else false

/-- Inner loop of `pmm_find_free_block`: `for (j; j < 32; j++)` over one word, with
`n` iterations left; `some j` is the `return` inside the loop. -/
def find_free_block_bits (block : Nat) : Nat → Nat → Option Nat
  | _, 0 => none
  | j, n + 1 =>
    if (1 <<< j) &&& block = 0 then some j
    else find_free_block_bits block (j + 1) n

/-- Outer loop of `pmm_find_free_block`, at word `i` with `n` words left.  The value
`(32 * i) + j` is computed in `uint32_t` and returned as an `int`. -/
def find_free_block_words (bm : Nat → Nat) : Nat → Nat → Int
  | _, 0 => -1
  | i, n + 1 =>
    if bm i ≠ 0xFFFFFFFF then
      match find_free_block_bits (bm i) 0 32 with
      | some j => toInt32 ((32 * i + j) % 2 ^ 32)
      | none => find_free_block_words bm (i + 1) n
    else find_free_block_words bm (i + 1) n

/-- Source: `pmm_find_free_block`, the loop `for (i = 0; i < phys_block_count / 32; i++)`. -/
def pmm_find_free_block (s : PmmState) : Int :=
  find_free_block_words s.phys_memory_bitmap 0 (s.phys_block_count / 32)

/-- The three local variables that `pmm_find_free_blocks` carries through its loops:
two `int`s and a `uint32_t`. -/
structure RunScan where
  starting_block : Int
  starting_block_bit : Int
  cur_block_num : Nat

/-- Inner loop of `pmm_find_free_blocks` over the word `cur_block` with index `i`:
bit `j`, `n` iterations left.  `Sum.inl r` is the `return r` inside the loop,
`Sum.inr st` the locals when the loop ends.  The returned value
`(32 * starting_block) + starting_block_bit` is `int` arithmetic. -/
def find_free_blocks_bits (count cur_block i : Nat) : Nat → Nat → RunScan → Int ⊕ RunScan
  | _, 0, st => Sum.inr st
  | j, n + 1, st =>
    if (1 <<< j) &&& cur_block ≠ 0 then
      find_free_blocks_bits count cur_block i (j + 1) n { st with cur_block_num := 0 }
    else
      let st1 : RunScan :=
        if st.cur_block_num = 0 then { st with starting_block := toInt32 i } else st
      let st2 : RunScan :=
        if st1.cur_block_num = 0 then { st1 with starting_block_bit := (j : Int) } else st1
      let st3 : RunScan := { st2 with cur_block_num := (st2.cur_block_num + 1) % 2 ^ 32 }
      if st3.cur_block_num = count then
        Sum.inl (wrapInt32 (32 * st3.starting_block + st3.starting_block_bit))
      else find_free_blocks_bits count cur_block i (j + 1) n st3

/-- Outer loop of `pmm_find_free_blocks`, at word `i` with `n` words left. -/
def find_free_blocks_words (bm : Nat → Nat) (count : Nat) : Nat → Nat → RunScan → Int
  | _, 0, _ => -1
  | i, n + 1, st =>
    if bm i = 0xFFFFFFFF then
      find_free_blocks_words bm count (i + 1) n { st with cur_block_num := 0 }
    else
      match find_free_blocks_bits count (bm i) i 0 32 st with
      | Sum.inl r => r
      | Sum.inr st1 => find_free_blocks_words bm count (i + 1) n st1

/-- Source: `pmm_find_free_blocks(count)`. -/
def pmm_find_free_blocks (s : PmmState) (count : Nat) : Int :=
  find_free_blocks_words s.phys_memory_bitmap count 0 (s.phys_block_count / 32)
    { starting_block := -1, starting_block_bit := -1, cur_block_num := 0 }

/-- Source: `pmm_alloc_block`; the result is the returned address and the new state.
The guard is the unsigned comparison `phys_block_count - phys_used_block_count <= 0`;
the address `free_block * PHYS_BLOCK_SIZE` is stored in a `uint32_t`. -/
def pmm_alloc_block (bs : Nat) (s : PmmState) : Nat × PmmState :=
  if (s.phys_block_count + 2 ^ 32 - s.phys_used_block_count) % 2 ^ 32 ≤ 0 then
    (0xFFFFFFFF, s)
  else
    let free_block := pmm_find_free_block s
    if free_block = -1 then (0xFFFFFFFF, s)
    else
      let addr := ((free_block * (bs : Int)) % 2 ^ 32).toNat
      (addr, { s with
        phys_memory_bitmap := bitmap_set s.phys_memory_bitmap free_block
        phys_used_block_count := (s.phys_used_block_count + 1) % 2 ^ 32 })

/-- Source: `pmm_free_block(addr)`, with `int block = addr / PHYS_BLOCK_SIZE`. -/
def pmm_free_block (bs : Nat) (s : PmmState) (addr : Nat) : PmmState :=
  let block := toInt32 (addr / bs)
  { s with
    phys_memory_bitmap := bitmap_unset s.phys_memory_bitmap block
    phys_used_block_count := (s.phys_used_block_count + 2 ^ 32 - 1) % 2 ^ 32 }

/-- Source: `pmm_is_block_alloced(addr)`, with `int block = addr / PHYS_BLOCK_SIZE`. -/
def pmm_is_block_alloced (bs : Nat) (s : PmmState) (addr : Nat) : Bool :=
  bitmap_test s.phys_memory_bitmap (toInt32 (addr / bs))

/-- The loop `for (i; i < count; i++) bitmap_set(free_block + i)` of `pmm_alloc_blocks`,
with `n` iterations left; the sum of the `int` and the `uint32_t` is passed as an `int`. -/
def alloc_blocks_loop (free_block : Int) : Nat → Nat → (Nat → Nat) → (Nat → Nat)
  | _, 0, bm => bm
  | i, n + 1, bm =>
    alloc_blocks_loop free_block (i + 1) n
      (bitmap_set bm (wrapInt32 (free_block + (i : Int))))

/-- Source: `pmm_alloc_blocks(count)`. -/
def pmm_alloc_blocks (bs : Nat) (s : PmmState) (count : Nat) : Nat × PmmState :=
  if (s.phys_block_count + 2 ^ 32 - s.phys_used_block_count) % 2 ^ 32 ≤ 0 then
    (0xFFFFFFFF, s)
  else
    let free_block := pmm_find_free_blocks s count
    if free_block = -1 then (0xFFFFFFFF, s)
    else
      let addr := ((free_block * (bs : Int)) % 2 ^ 32).toNat
      (addr, { s with
        phys_memory_bitmap := alloc_blocks_loop free_block 0 count s.phys_memory_bitmap
        phys_used_block_count := (s.phys_used_block_count + count) % 2 ^ 32 })

/-- The loop `for (i; i < count; i++) bitmap_unset(block + i)` of `pmm_free_blocks`. -/
def free_blocks_loop (block : Int) : Nat → Nat → (Nat → Nat) → (Nat → Nat)
  | _, 0, bm => bm
  | i, n + 1, bm =>
    free_blocks_loop block (i + 1) n (bitmap_unset bm (wrapInt32 (block + (i : Int))))

/-- Source: `pmm_free_blocks(addr, count)`, with `int block = addr / PHYS_BLOCK_SIZE`. -/
def pmm_free_blocks (bs : Nat) (s : PmmState) (addr count : Nat) : PmmState :=
  let block := toInt32 (addr / bs)
  { s with
    phys_memory_bitmap := free_blocks_loop block 0 count s.phys_memory_bitmap
    phys_used_block_count := (s.phys_used_block_count + 2 ^ 32 - count) % 2 ^ 32 }

/-- Number of set bits of the bitmap among the bit indices `[0, n)`. -/
def popcount (bm : Nat → Nat) : Nat → Nat
  | 0 => 0
  | n + 1 => popcount bm n + (if bitmap_test bm (n : Int) then 1 else 0)

/-- The `count` bits starting at bit `st` are all clear (the blocks are free). -/
def clearRun (bm : Nat → Nat) (st count : Nat) : Prop :=
  ∀ k : Nat, st ≤ k → k < st + count → bitmap_test bm (k : Int) = false

/-- Loop invariant of `pmm_find_free_blocks` when bit `p` is the next one to look at:
the locals describe the maximal clear run that ends just before `p`, it is shorter
than `count`, and no run of `count` clear bits lies below `p`. -/
def RunInv (bm : Nat → Nat) (count p : Nat) (st : RunScan) : Prop :=
  st.cur_block_num ≤ p ∧
  (st.cur_block_num ≠ 0 →
    32 * st.starting_block + st.starting_block_bit = ((p - st.cur_block_num : Nat) : Int)) ∧
  clearRun bm (p - st.cur_block_num) st.cur_block_num ∧
  (st.cur_block_num < p → bitmap_test bm ((p - st.cur_block_num - 1 : Nat) : Int) = true) ∧
  st.cur_block_num < count ∧
  (∀ s0, s0 + count ≤ p → ¬ clearRun bm s0 count)

/-- What a value returned from inside the loops of `pmm_find_free_blocks` satisfies:
it is, as an `int`, the start of the lowest run of `count` clear bits, and the run ends
by bit `b`. -/
def RunPost (bm : Nat → Nat) (count b : Nat) (r : Int) : Prop :=
  ∃ s0 : Nat, r = toInt32 s0 ∧ clearRun bm s0 count ∧ s0 + count ≤ b ∧
    ∀ s1, s1 < s0 → ¬ clearRun bm s1 count

/-- Outcome of the bit loop of `pmm_find_free_blocks`, read against `RunPost` and `RunInv`. -/
def RunResult (bm : Nat → Nat) (count b : Nat) : Int ⊕ RunScan → Prop
  | Sum.inl r => RunPost bm count b r
  | Sum.inr st => RunInv bm count b st

/-- A state with `2^20 + 32` blocks: the first `2^20` are in use, the last 32 are free. -/
def wrapState : PmmState :=
  { phys_memory_bitmap := fun w => if w < 32768 then 0xFFFFFFFF else 0
    phys_memory_bitmap_addr := 0
    phys_block_count := 1048608
    phys_used_block_count := 1048576
    kernel_phys_map_start := 0
    kernel_phys_map_end := 0
    phys_installed_memory_size := 0
    phys_available_memory_size := 0 }

/-- A state with `2^31 + 32` blocks: the first `2^31` are in use, the last 32 are free. -/
def bigState : PmmState :=
  { phys_memory_bitmap := fun w => if w < 67108864 then 0xFFFFFFFF else 0
    phys_memory_bitmap_addr := 0
    phys_block_count := 2147483680
    phys_used_block_count := 2147483648
    kernel_phys_map_start := 0
    kernel_phys_map_end := 0
    phys_installed_memory_size := 0
    phys_available_memory_size := 0 }

/-- A state from a list of bitmap words (words past the list are zero) and the two
block counters. -/
def mkState (words : List Nat) (count used : Nat) : PmmState :=
  { phys_memory_bitmap := fun w => words.getD w 0
    phys_memory_bitmap_addr := 0
    phys_block_count := count
    phys_used_block_count := used
    kernel_phys_map_start := 0
    kernel_phys_map_end := 0
    phys_installed_memory_size := 0
    phys_available_memory_size := 0 }

/-- The loop body of `pmm_alloc_chunk`, `n` times:
`bitmap_set(cur_block_addr++); phys_used_block_count--;`, with `int cur_block_addr`. -/
def alloc_chunk_loop : Nat → Int → PmmState → PmmState
  | 0, _, s => s
  | n + 1, cur_block_addr, s =>
    alloc_chunk_loop n (wrapInt32 (cur_block_addr + 1))
      { s with
        phys_memory_bitmap := bitmap_set s.phys_memory_bitmap cur_block_addr
        phys_used_block_count := (s.phys_used_block_count + 2 ^ 32 - 1) % 2 ^ 32 }

/-- Source: `pmm_alloc_chunk(base_addr, length)`.  The loop `while (num_blocks-- >= 0)`
runs `num_blocks + 1` times for a non-negative `num_blocks` and not at all for a
negative one. -/
def pmm_alloc_chunk (bs : Nat) (s : PmmState) (base_addr length : Nat) : PmmState :=
  let cur_block_addr := toInt32 (base_addr / bs)
  let num_blocks := toInt32 (length / bs)
  if 0 ≤ num_blocks then alloc_chunk_loop (num_blocks.toNat + 1) cur_block_addr s
  else s

/-- The loop body of `pmm_free_chunk`, `n` times:
`bitmap_unset(cur_block_addr++); phys_used_block_count--;`, with `int cur_block_addr`. -/
def free_chunk_loop : Nat → Int → PmmState → PmmState
  | 0, _, s => s
  | n + 1, cur_block_addr, s =>
    free_chunk_loop n (wrapInt32 (cur_block_addr + 1))
      { s with
        phys_memory_bitmap := bitmap_unset s.phys_memory_bitmap cur_block_addr
        phys_used_block_count := (s.phys_used_block_count + 2 ^ 32 - 1) % 2 ^ 32 }

/-- Source: `pmm_free_chunk(base_addr, length)`.  The loop `while (num_blocks--)` runs
`num_blocks` times; for a negative `num_blocks` it counts down through the wrap of
`int`, as many times as the unsigned value of the same 32 bits. -/
def pmm_free_chunk (bs : Nat) (s : PmmState) (base_addr length : Nat) : PmmState :=
  free_chunk_loop ((length / bs) % 2 ^ 32) (toInt32 (base_addr / bs)) s

/-- The fields of a boot memory map record that the module reads. -/
structure multiboot_memory_map_entry where
  size : Nat
  addr : Nat
  len : Nat
  type : Nat

/-- The fields of `struct multiboot_info` that the module reads. -/
structure multiboot_info where
  mmap_addr : Nat
  mmap_length : Nat

/-- The loop of `pmm_parse_memory_map` at index `i`, with `n` iterations left; the two
totals are `uint64_t`. -/
def parse_memory_map_loop (mentry : Nat → multiboot_memory_map_entry) :
    Nat → Nat → PmmState → PmmState
  | 0, _, s => s
  | n + 1, i, s =>
    let s1 : PmmState :=
      if (mentry i).type = 1 then
        { s with phys_available_memory_size :=
            (s.phys_available_memory_size + (mentry i).len) % 2 ^ 64 }
      else s
    parse_memory_map_loop mentry n (i + 1)
      { s1 with phys_installed_memory_size :=
          (s1.phys_installed_memory_size + (mentry i).len) % 2 ^ 64 }

/-- Source: `pmm_parse_memory_map(mmap_addr, length)`; `mentry i` is `*(mentry + i)` and
`esz` is `sizeof(multiboot_memory_map_entry)`.  The loop `for (i = 0; i < n; i++)` over
the `int n = length / esz` does not run for a negative `n`. -/
def pmm_parse_memory_map (esz : Nat) (s : PmmState)
    (mentry : Nat → multiboot_memory_map_entry) (length : Nat) : PmmState :=
  let n := toInt32 (length / esz)
  parse_memory_map_loop mentry n.toNat 0 s

/-- The loop of `pmm_free_available_memory` with the pointer `mm` as a 32-bit address;
`lim` is `mb->mmap_addr + mb->mmap_length`, `ssz` is `sizeof(mm->size)`. -/
def free_available_walk (bs ssz : Nat) (mem : Nat → multiboot_memory_map_entry)
    (lim : Nat) : Nat → Nat → PmmState → Option PmmState
  | 0, mm, s => if mm < lim then none else some s
  | fuel + 1, mm, s =>
    if mm < lim then
      let s1 : PmmState :=
        if (mem mm).type = 1 then pmm_free_chunk bs s (mem mm).addr (mem mm).len else s
      free_available_walk bs ssz mem lim fuel ((mm + (mem mm).size + ssz) % 2 ^ 32) s1
    else some s

/-- Source: `pmm_free_available_memory(mb)`: the walk over the map, then `bitmap_set(0)`. -/
def pmm_free_available_memory (bs ssz : Nat) (mem : Nat → multiboot_memory_map_entry)
    (mb : multiboot_info) (fuel : Nat) (s : PmmState) : Option PmmState :=
  match free_available_walk bs ssz mem ((mb.mmap_addr + mb.mmap_length) % 2 ^ 32) fuel
      mb.mmap_addr s with
  | some s1 => some { s1 with phys_memory_bitmap := bitmap_set s1.phys_memory_bitmap 0 }
  | none => none

/-- The constants that `pmm_init` takes from headers outside the sources at hand, and
the sizes of the boot record type. -/
structure BootConfig where
  PHYS_BLOCK_SIZE : Nat
  PHYS_BLOCKS_PER_BYTE : Nat
  KERNEL_START_PADDR : Nat
  KERNEL_END_PADDR : Nat
  KERNEL_SIZE : Nat
  entry_size : Nat
  size_field_size : Nat

/-- Modelled from the spec: the byte-fill primitive (`memset` of the kernel's C library,
not among the sources), as the call `memset(phys_memory_bitmap, 0xFF, nbytes)` on
little-endian 32-bit words: whole words become `0xFFFFFFFF`, and a last word that is
covered in part gets its low bytes set. -/
def memset_ff (bm : Nat → Nat) (nbytes : Nat) : Nat → Nat :=
  fun w =>
    if 4 * w + 4 ≤ nbytes then 0xFFFFFFFF
    else if 4 * w < nbytes then bm w ||| (2 ^ (8 * (nbytes - 4 * w)) - 1)
    else bm w

/-- The byte `b` stored at address `a`, seen from the array of 32-bit words that starts
at address `base`: on a little-endian machine it replaces byte `(a - base) % 4` of word
`(a - base) / 4`.  An address below `base` is not in the array. -/
def store_byte (base : Nat) (bm : Nat → Nat) (a b : Nat) : Nat → Nat :=
  fun w =>
    if base ≤ a ∧ w = (a - base) / 4 then
      (bm w &&& (0xFFFFFFFF ^^^ (0xFF <<< (8 * ((a - base) % 4))))) |||
        (b <<< (8 * ((a - base) % 4)))
    else bm w

/-- Modelled from the spec: the byte-copy primitive (`memcpy` of the kernel's C library,
not among the sources), as far as it reaches the array at `base`: the bytes of the list
are stored at `dest`, `dest + 1`, ... (32-bit addresses). -/
def memcpy (base : Nat) : Nat → List Nat → (Nat → Nat) → (Nat → Nat)
  | _, [], bm => bm
  | dest, b :: rest, bm => memcpy base ((dest + 1) % 2 ^ 32) rest (store_byte base bm dest b)

/-- The 13 bytes of the string literal `"Hello world!"`, its terminating zero included. -/
def hello_str : List Nat :=
  [0x48, 0x65, 0x6C, 0x6C, 0x6F, 0x20, 0x77, 0x6F, 0x72, 0x6C, 0x64, 0x21, 0x00]

/-- Source: `pmm_test`: one `pmm_alloc_block()`, then `memcpy(myptr, str, 13)` to the
address it returned.  The copy back into the local `buf` changes nothing in the state. -/
def pmm_test (bs : Nat) (s : PmmState) : PmmState :=
  let r := pmm_alloc_block bs s
  { r.2 with
    phys_memory_bitmap :=
      memcpy r.2.phys_memory_bitmap_addr r.1 hello_str r.2.phys_memory_bitmap }

/-- Source: `pmm_init(mboot_info)`.  `ram` is the content of the memory at
`KERNEL_END_PADDR`, where the bitmap is placed, before the call. -/
def pmm_init (c : BootConfig) (mem : Nat → multiboot_memory_map_entry) (ram : Nat → Nat)
    (mb : multiboot_info) (fuel : Nat) (s : PmmState) : Option PmmState :=
  let s1 := pmm_parse_memory_map c.entry_size s
    (fun i => mem (mb.mmap_addr + i * c.entry_size)) mb.mmap_length
  let count := (s1.phys_installed_memory_size / c.PHYS_BLOCK_SIZE) % 2 ^ 32
  let s2 : PmmState :=
    { s1 with
      phys_block_count := count
      phys_used_block_count := count
      phys_memory_bitmap_addr := c.KERNEL_END_PADDR % 2 ^ 32
      phys_memory_bitmap := memset_ff ram (count / c.PHYS_BLOCKS_PER_BYTE) }
  match pmm_free_available_memory c.PHYS_BLOCK_SIZE c.size_field_size mem mb fuel s2 with
  | none => none
  | some s3 =>
    let s4 := pmm_alloc_chunk c.PHYS_BLOCK_SIZE s3 c.KERNEL_START_PADDR c.KERNEL_SIZE
    let s5 := pmm_alloc_chunk c.PHYS_BLOCK_SIZE s4 (s4.phys_memory_bitmap 0)
      s4.phys_block_count
    let s6 : PmmState :=
      { s5 with
        kernel_phys_map_start := s5.phys_memory_bitmap_addr
        kernel_phys_map_end :=
          (s5.phys_memory_bitmap_addr + s5.phys_block_count / c.PHYS_BLOCKS_PER_BYTE) % 2 ^ 32 }
    some (pmm_test c.PHYS_BLOCK_SIZE s6)

/-- A boot memory map laid out at address `base` with one record every `esz` bytes:
the record read at `base + i * esz` is the `i`-th entry of the list. -/
def memOf (base esz : Nat) (es : List multiboot_memory_map_entry) :
    Nat → multiboot_memory_map_entry :=
  fun p => es.getD ((p - base) / esz) { size := 0, addr := 0, len := 0, type := 0 }

/-- The state before `pmm_init`: the initial values of the global variables. -/
def bootState : PmmState :=
  { phys_memory_bitmap := fun _ => 0
    phys_memory_bitmap_addr := 0
    phys_block_count := 0
    phys_used_block_count := 0
    kernel_phys_map_start := 0
    kernel_phys_map_end := 0
    phys_installed_memory_size := 0
    phys_available_memory_size := 0 }

/-- Sum of the lengths of the `n` map entries from index `i` on. -/
def sumLen (mentry : Nat → multiboot_memory_map_entry) : Nat → Nat → Nat
  | _, 0 => 0
  | i, n + 1 => (mentry i).len + sumLen mentry (i + 1) n

/-- Sum of the lengths of those of the `n` map entries from index `i` on whose type tag
is 1. -/
def sumUsable (mentry : Nat → multiboot_memory_map_entry) : Nat → Nat → Nat
  | _, 0 => 0
  | i, n + 1 => (if (mentry i).type = 1 then (mentry i).len else 0) + sumUsable mentry (i + 1) n

/-- One pass of the loop body of `pmm_free_available_memory` over the record `e`. -/
def free_step (bs : Nat) (s : PmmState) (e : multiboot_memory_map_entry) : PmmState :=
  if e.type = 1 then pmm_free_chunk bs s e.addr e.len else s

/-- The list `es` is the boot memory map that `mb` describes: one record every
`entry_size` bytes from `mmap_addr` on, each with the `size` field of that layout,
`mmap_length` covering exactly the records, all below `2^32`. -/
def MapLayout (c : BootConfig) (mem : Nat → multiboot_memory_map_entry) (mb : multiboot_info)
    (es : List multiboot_memory_map_entry) : Prop :=
  0 < c.entry_size ∧
  mb.mmap_length = es.length * c.entry_size ∧
  mb.mmap_addr + mb.mmap_length < 2 ^ 32 ∧
  ∀ i, i < es.length →
    es.get? i = some (mem (mb.mmap_addr + i * c.entry_size)) ∧
    (mem (mb.mmap_addr + i * c.entry_size)).size + c.size_field_size = c.entry_size

/-- Total number of blocks in the usable (type 1) ranges of a map. -/
def usableBlocks (bs : Nat) : List multiboot_memory_map_entry → Nat
  | [] => 0
  | e :: es => (if e.type = 1 then e.len / bs else 0) + usableBlocks bs es

/-- Block `k` lies in the usable range that the record `e` describes. -/
def inUsable (bs : Nat) (e : multiboot_memory_map_entry) (k : Nat) : Prop :=
  e.type = 1 ∧ e.addr ≤ k * bs ∧ k * bs < e.addr + e.len

/-- The usable ranges of the map are block-aligned, lie inside `[0, count * bs)` and are
pairwise disjoint. -/
def UsableRanges (bs count : Nat) (es : List multiboot_memory_map_entry) : Prop :=
  (∀ e ∈ es, e.type = 1 →
    e.addr % bs = 0 ∧ e.len % bs = 0 ∧ e.addr + e.len ≤ count * bs) ∧
  es.Pairwise (fun e1 e2 => e1.type = 1 → e2.type = 1 →
    e1.addr + e1.len ≤ e2.addr ∨ e2.addr + e2.len ≤ e1.addr)

/-- The state of `pmm_init` when it calls `pmm_free_available_memory`: the totals are
parsed, both block counters are set and the bitmap storage is filled. -/
def init_phase2 (c : BootConfig) (mem : Nat → multiboot_memory_map_entry) (ram : Nat → Nat)
    (mb : multiboot_info) (s : PmmState) : PmmState :=
  let s1 := pmm_parse_memory_map c.entry_size s
    (fun i => mem (mb.mmap_addr + i * c.entry_size)) mb.mmap_length
  let count := (s1.phys_installed_memory_size / c.PHYS_BLOCK_SIZE) % 2 ^ 32
  { s1 with
    phys_block_count := count
    phys_used_block_count := count
    phys_memory_bitmap_addr := c.KERNEL_END_PADDR % 2 ^ 32
    phys_memory_bitmap := memset_ff ram (count / c.PHYS_BLOCKS_PER_BYTE) }

/-- The part of `pmm_init` between `pmm_free_available_memory` and `pmm_test`: the two
`pmm_alloc_chunk` calls and the record of the bitmap range. -/
def init_phase4 (c : BootConfig) (s3 : PmmState) : PmmState :=
  let s4 := pmm_alloc_chunk c.PHYS_BLOCK_SIZE s3 c.KERNEL_START_PADDR c.KERNEL_SIZE
  let s5 := pmm_alloc_chunk c.PHYS_BLOCK_SIZE s4 (s4.phys_memory_bitmap 0)
    s4.phys_block_count
  { s5 with
    kernel_phys_map_start := s5.phys_memory_bitmap_addr
    kernel_phys_map_end :=
      (s5.phys_memory_bitmap_addr + s5.phys_block_count / c.PHYS_BLOCKS_PER_BYTE) % 2 ^ 32 }

/-- Block `k` overlaps the byte range `[a, b)`. -/
def blockOverlaps (bs k a b : Nat) : Prop :=
  k * bs < b ∧ a < (k + 1) * bs

/-- The constants of a usual build: 4096-byte blocks, 8 blocks to a bitmap byte,
24-byte map records with a 4-byte `size` field; the kernel placement is given. -/
def stdConfig (kstart kend ksize : Nat) : BootConfig :=
  { PHYS_BLOCK_SIZE := 4096
    PHYS_BLOCKS_PER_BYTE := 8
    KERNEL_START_PADDR := kstart
    KERNEL_END_PADDR := kend
    KERNEL_SIZE := ksize
    entry_size := 24
    size_field_size := 4 }

/-- A map record of the usual layout. -/
def mkEntry (addr len type : Nat) : multiboot_memory_map_entry :=
  { size := 20, addr := addr, len := len, type := type }

/-- The boot information for a map of `n` records placed at address `0x9000`. -/
def mbAt (n : Nat) : multiboot_info :=
  { mmap_addr := 0x9000, mmap_length := n * 24 }

/-- The memory map of the 16 MiB scenario: 15 MiB usable from address 0, then 1 MiB
reserved. -/
def e2eMap : List multiboot_memory_map_entry :=
  [mkEntry 0 0xF00000 1, mkEntry 0xF00000 0x100000 2]

/-- The constants of the 16 MiB scenario: a 64 KiB kernel at address 0, the bitmap right
after it. -/
def e2eConfig : BootConfig := stdConfig 0 0x10000 0x10000

/-- A memory map of `2^31 + 32` blocks of 4096 bytes: `2^43` bytes reserved from address
0, then one usable block, block `2^31`, then 31 reserved blocks. -/
def farMap : List multiboot_memory_map_entry :=
  [mkEntry 0 0x80000000000 2, mkEntry 0x80000000000 0x1000 1,
    mkEntry 0x80000001000 0x1F000 2]

/-- The state of `pmm_init` when it calls `pmm_free_available_memory` on `farMap`, with a
64 KiB kernel at 1 MiB and the bitmap right after it. -/
def farPhase2 : PmmState :=
  init_phase2 (stdConfig 0x100000 0x110000 0x10000) (memOf 0x9000 24 farMap) (fun _ => 0)
    (mbAt 3) bootState

/-! ## Conversions to `int` -/

theorem toInt32_of_lt (n : Nat) (h : n < 2 ^ 31) : toInt32 n = (n : Int) := by
  unfold toInt32
  have h1 : n % 2 ^ 32 = n := Nat.mod_eq_of_lt (by omega)
  rw [h1, if_pos h]

theorem toInt32_of_ge (n : Nat) (h1 : 2 ^ 31 ≤ n) (h2 : n < 2 ^ 32) :
    toInt32 n = (n : Int) - 2 ^ 32 := by
  unfold toInt32
  have h3 : n % 2 ^ 32 = n := Nat.mod_eq_of_lt h2
  rw [h3, if_neg (by omega)]

theorem toInt32_mod (n : Nat) : toInt32 (n % 2 ^ 32) = toInt32 n := by
  unfold toInt32
  rw [Nat.mod_mod]

/-- A value below `2^32 - 1` does not become `-1` as an `int`. -/
theorem toInt32_ne_neg_one (n : Nat) (h : n < 2 ^ 32 - 1) : toInt32 n ≠ -1 := by
  unfold toInt32
  split <;> omega

/-- Where `toInt32 n` is a natural number `k`, it is `n` itself. -/
theorem toInt32_eq_natCast (n k : Nat) (h : n < 2 ^ 32) :
    toInt32 n = (k : Int) ↔ (k = n ∧ n < 2 ^ 31) := by
  unfold toInt32
  split <;> omega

/-- The low 32 bits of an `int` plus a `uint32_t`, read as an `int` again. -/
theorem wrapInt32_toInt32_add (n i : Nat) :
    wrapInt32 (toInt32 n + (i : Int)) = toInt32 (n + i) := by
  unfold wrapInt32
  have h : ((toInt32 n + (i : Int)) % 2 ^ 32).toNat = (n + i) % 2 ^ 32 := by
    unfold toInt32
    split <;> omega
  rw [h, toInt32_mod]

theorem wrapInt32_toInt32_succ (n : Nat) : wrapInt32 (toInt32 n + 1) = toInt32 (n + 1) := by
  have := wrapInt32_toInt32_add n 1
  simpa using this

theorem wrapInt32_natCast (n : Nat) : wrapInt32 (n : Int) = toInt32 n := by
  unfold wrapInt32
  have h : (((n : Int)) % 2 ^ 32).toNat = n % 2 ^ 32 := by omega
  rw [h, toInt32_mod]

/-- The 32-bit product of an `int` index with the block size depends on the low 32 bits
of the index only. -/
theorem toInt32_mul_mod (n bs : Nat) :
    ((toInt32 n * (bs : Int)) % 2 ^ 32).toNat = (n * bs) % 2 ^ 32 := by
  have hn : (n : Int) = ((n % 2 ^ 32 : Nat) : Int) + 2 ^ 32 * ((n / 2 ^ 32 : Nat) : Int) := by
    have := Nat.mod_add_div n (2 ^ 32)
    omega
  have key : (toInt32 n * (bs : Int)) % 2 ^ 32 = ((n : Int) * (bs : Int)) % 2 ^ 32 := by
    unfold toInt32
    split
    · rw [hn, add_mul, mul_assoc, Int.add_mul_emod_self_left]
    · rw [hn, add_mul, sub_mul, mul_assoc, Int.add_mul_emod_self_left]
      have : ((n % 2 ^ 32 : Nat) : Int) * (bs : Int) - 2 ^ 32 * (bs : Int) =
          ((n % 2 ^ 32 : Nat) : Int) * (bs : Int) + 2 ^ 32 * (-(bs : Int)) := by ring
      rw [this, Int.add_mul_emod_self_left]
  rw [key]
  have h2 : ((n : Int) * (bs : Int)) % 2 ^ 32 = (((n * bs) % 2 ^ 32 : Nat) : Int) := by
    push_cast
    rfl
  rw [h2, Int.toNat_ofNat]

/-! ## Bit-level facts -/

theorem and_two_pow_ne_zero (w j : Nat) : (w &&& 2 ^ j != 0) = w.testBit j := by
  have h : w &&& 2 ^ j = if w.testBit j then 2 ^ j else 0 := by
    apply Nat.eq_of_testBit_eq
    intro i
    rw [Nat.testBit_and, Nat.testBit_two_pow]
    by_cases hj : j = i
    · subst hj
      cases hw : w.testBit j <;> simp [Nat.testBit_two_pow]
    · cases hw : w.testBit j <;> simp [Nat.testBit_two_pow, hj]
  rw [h]
  cases hw : w.testBit j
  · simp
  · have : (2 : Nat) ^ j ≠ 0 := by positivity
    simp [this]

/-- The three bitmap functions at an index that is a natural number. -/
theorem bitmap_set_nat (bm : Nat → Nat) (n : Nat) :
    bitmap_set bm (n : Int) =
      fun w => if w = n / 32 then bm w ||| (1 <<< (n % 32)) else bm w := by
  unfold bitmap_set
  rw [if_pos (Int.ofNat_nonneg n), Int.toNat_ofNat]

theorem bitmap_unset_nat (bm : Nat → Nat) (n : Nat) :
    bitmap_unset bm (n : Int) =
      fun w => if w = n / 32 then bm w &&& (0xFFFFFFFF ^^^ (1 <<< (n % 32))) else bm w := by
  unfold bitmap_unset
  rw [if_pos (Int.ofNat_nonneg n), Int.toNat_ofNat]

theorem bitmap_test_nat (bm : Nat → Nat) (n : Nat) :
    bitmap_test bm (n : Int) = (bm (n / 32) &&& (1 <<< (n % 32)) != 0) := by
  unfold bitmap_test
  rw [if_pos (Int.ofNat_nonneg n), Int.toNat_ofNat]

/-- The three bitmap functions at a negative index. -/
theorem bitmap_set_neg (bm : Nat → Nat) (z : Int) (h : z < 0) : bitmap_set bm z = bm := by
  unfold bitmap_set
  rw [if_neg (by omega)]

theorem bitmap_unset_neg (bm : Nat → Nat) (z : Int) (h : z < 0) : bitmap_unset bm z = bm := by
  unfold bitmap_unset
  rw [if_neg (by omega)]

theorem bitmap_test_neg (bm : Nat → Nat) (z : Int) (h : z < 0) : bitmap_test bm z = false := by
  unfold bitmap_test
  rw [if_neg (by omega)]

theorem bitmap_test_eq (bm : Nat → Nat) (k : Nat) :
    bitmap_test bm (k : Int) = (bm (k / 32)).testBit (k % 32) := by
  rw [bitmap_test_nat, Nat.one_shiftLeft]
  exact and_two_pow_ne_zero _ _

theorem bitmap_test_set (bm : Nat → Nat) (i k : Nat) :
    bitmap_test (bitmap_set bm (i : Int)) (k : Int) =
      (decide (k = i) || bitmap_test bm (k : Int)) := by
  rw [bitmap_test_eq, bitmap_test_eq, bitmap_set_nat]
  by_cases hw : k / 32 = i / 32
  · simp only [if_pos hw]
    rw [Nat.one_shiftLeft, Nat.testBit_or, Nat.testBit_two_pow]
    by_cases hb : i % 32 = k % 32
    · have : k = i := by omega
      simp [hb, this]
    · have : k ≠ i := by intro h; exact hb (by rw [h])
      simp [hb, this]
  · simp only [if_neg hw]
    have : k ≠ i := by intro h; exact hw (by rw [h])
    simp [this]

theorem bitmap_test_unset (bm : Nat → Nat) (i k : Nat) :
    bitmap_test (bitmap_unset bm (i : Int)) (k : Int) =
      (!decide (k = i) && bitmap_test bm (k : Int)) := by
  rw [bitmap_test_eq, bitmap_test_eq, bitmap_unset_nat]
  have hk : k % 32 < 32 := Nat.mod_lt _ (by decide)
  by_cases hw : k / 32 = i / 32
  · simp only [if_pos hw]
    rw [Nat.one_shiftLeft, Nat.testBit_and, Nat.testBit_xor,
      show (0xFFFFFFFF : Nat) = 2 ^ 32 - 1 from rfl, Nat.testBit_two_pow_sub_one,
      Nat.testBit_two_pow]
    by_cases hb : i % 32 = k % 32
    · have : k = i := by omega
      have hi : i % 32 < 32 := Nat.mod_lt _ (by decide)
      simp [this, hi]
    · have : k ≠ i := by intro h; exact hb (by rw [h])
      simp [hb, this, hk, Bool.and_comm]
  · simp only [if_neg hw]
    have : k ≠ i := by intro h; exact hw (by rw [h])
    simp [this]

/-- Bit `k` after `bitmap_set(z)`, for every `int` index `z`: only a non-negative `z`
reaches the array. -/
theorem bitmap_test_set_int (bm : Nat → Nat) (z : Int) (k : Nat) :
    bitmap_test (bitmap_set bm z) (k : Int) =
      (decide ((k : Int) = z) || bitmap_test bm (k : Int)) := by
  by_cases hz : 0 ≤ z
  · obtain ⟨i, rfl⟩ := Int.eq_ofNat_of_zero_le hz
    rw [bitmap_test_set]
    simp
  · rw [bitmap_set_neg bm z (by omega)]
    have : ¬ ((k : Int) = z) := by omega
    simp [this]

/-- Bit `k` after `bitmap_unset(z)`, for every `int` index `z`. -/
theorem bitmap_test_unset_int (bm : Nat → Nat) (z : Int) (k : Nat) :
    bitmap_test (bitmap_unset bm z) (k : Int) =
      (!decide ((k : Int) = z) && bitmap_test bm (k : Int)) := by
  by_cases hz : 0 ≤ z
  · obtain ⟨i, rfl⟩ := Int.eq_ofNat_of_zero_le hz
    rw [bitmap_test_unset]
    simp
  · rw [bitmap_unset_neg bm z (by omega)]
    have : ¬ ((k : Int) = z) := by omega
    simp [this]

/-- A 32-bit word all of whose 32 bits are set is `0xFFFFFFFF`. -/
theorem word_full_of_bits (w : Nat) (hw : w < 2 ^ 32) (h : ∀ j, j < 32 → w.testBit j = true) :
    w = 0xFFFFFFFF := by
  apply Nat.eq_of_testBit_eq
  intro i
  rw [show (0xFFFFFFFF : Nat) = 2 ^ 32 - 1 from rfl, Nat.testBit_two_pow_sub_one]
  by_cases hi : i < 32
  · simp [hi, h i hi]
  · simp only [hi, decide_False]
    apply Nat.testBit_lt_two_pow
    calc w < 2 ^ 32 := hw
      _ ≤ 2 ^ i := Nat.pow_le_pow_right (by decide) (by omega)

theorem word_full_bits (j : Nat) (hj : j < 32) : (0xFFFFFFFF : Nat).testBit j = true := by
  rw [show (0xFFFFFFFF : Nat) = 2 ^ 32 - 1 from rfl, Nat.testBit_two_pow_sub_one]
  simp [hj]

theorem bitmap_set_lt (bm : Nat → Nat) (z : Int) (h : ∀ w, bm w < 2 ^ 32) (w : Nat) :
    bitmap_set bm z w < 2 ^ 32 := by
  unfold bitmap_set
  split
  · show (if w = z.toNat / 32 then bm w ||| (1 <<< (z.toNat % 32)) else bm w) < 2 ^ 32
    split
    · apply Nat.or_lt_two_pow (h w)
      rw [Nat.one_shiftLeft]
      exact Nat.pow_lt_pow_right (by decide) (Nat.mod_lt _ (by decide))
    · exact h w
  · exact h w

theorem bitmap_unset_lt (bm : Nat → Nat) (z : Int) (h : ∀ w, bm w < 2 ^ 32) (w : Nat) :
    bitmap_unset bm z w < 2 ^ 32 := by
  unfold bitmap_unset
  split
  · show (if w = z.toNat / 32 then bm w &&& (0xFFFFFFFF ^^^ (1 <<< (z.toNat % 32)))
      else bm w) < 2 ^ 32
    split
    · exact Nat.lt_of_le_of_lt Nat.and_le_left (h w)
    · exact h w
  · exact h w

/-- Clearing a bit that was just set restores the word array, when the bit was clear. -/
theorem bitmap_unset_set (bm : Nat → Nat) (i : Nat) (hw : bm (i / 32) < 2 ^ 32)
    (hfree : bitmap_test bm (i : Int) = false) :
    bitmap_unset (bitmap_set bm (i : Int)) (i : Int) = bm := by
  funext w
  rw [bitmap_unset_nat, bitmap_set_nat]
  by_cases h : w = i / 32
  · subst h
    simp only [if_true]
    rw [bitmap_test_eq] at hfree
    apply Nat.eq_of_testBit_eq
    intro k
    rw [Nat.one_shiftLeft, Nat.testBit_and, Nat.testBit_or, Nat.testBit_xor,
      show (0xFFFFFFFF : Nat) = 2 ^ 32 - 1 from rfl, Nat.testBit_two_pow_sub_one,
      Nat.testBit_two_pow]
    by_cases hk : i % 32 = k
    · subst hk
      have hi : i % 32 < 32 := Nat.mod_lt _ (by decide)
      simp [hfree, hi]
    · by_cases hk32 : k < 32
      · simp [hk, hk32]
      · have : (bm (i / 32)).testBit k = false := by
          apply Nat.testBit_lt_two_pow
          calc bm (i / 32) < 2 ^ 32 := hw
            _ ≤ 2 ^ k := Nat.pow_le_pow_right (by decide) (by omega)
        simp [hk, hk32, this]
  · simp [h]

/-- The same for every `int` index: a negative one touches nothing either way. -/
theorem bitmap_unset_set_int (bm : Nat → Nat) (z : Int) (hw : ∀ w, bm w < 2 ^ 32)
    (hfree : bitmap_test bm z = false) : bitmap_unset (bitmap_set bm z) z = bm := by
  by_cases hz : 0 ≤ z
  · obtain ⟨i, rfl⟩ := Int.eq_ofNat_of_zero_le hz
    exact bitmap_unset_set bm i (hw _) hfree
  · rw [bitmap_set_neg bm z (by omega), bitmap_unset_neg bm z (by omega)]

/-! ## The single-block scan -/

theorem two_pow_and_eq_zero (w j : Nat) : ((1 <<< j) &&& w = 0) ↔ w.testBit j = false := by
  have h := and_two_pow_ne_zero w j
  rw [Nat.one_shiftLeft, Nat.and_comm]
  cases hb : w.testBit j
  · rw [hb] at h
    simpa using h
  · rw [hb] at h
    simpa using h

theorem bitmap_test_word (bm : Nat → Nat) (i j : Nat) (hj : j < 32) :
    bitmap_test bm ((32 * i + j : Nat) : Int) = (bm i).testBit j := by
  rw [bitmap_test_eq]
  have h1 : (32 * i + j) / 32 = i := by omega
  have h2 : (32 * i + j) % 32 = j := by omega
  rw [h1, h2]

theorem find_free_block_bits_some (block : Nat) :
    ∀ n j r, find_free_block_bits block j n = some r →
      j ≤ r ∧ r < j + n ∧ block.testBit r = false ∧
        ∀ k, j ≤ k → k < r → block.testBit k = true := by
  intro n
  induction n with
  | zero => intro j r h; simp [find_free_block_bits] at h
  | succ n ih =>
    intro j r h
    unfold find_free_block_bits at h
    by_cases hc : (1 <<< j) &&& block = 0
    · rw [if_pos hc] at h
      have hr : j = r := by simpa using h
      subst hr
      refine ⟨le_refl _, by omega, (two_pow_and_eq_zero _ _).1 hc, ?_⟩
      intro k h1 h2
      omega
    · rw [if_neg hc] at h
      obtain ⟨h1, h2, h3, h4⟩ := ih (j + 1) r h
      refine ⟨by omega, by omega, h3, ?_⟩
      intro k hk1 hk2
      by_cases hkj : k = j
      · subst hkj
        cases hb : block.testBit k
        · exact absurd ((two_pow_and_eq_zero _ _).2 hb) hc
        · rfl
      · exact h4 k (by omega) hk2

theorem find_free_block_bits_none (block : Nat) :
    ∀ n j, find_free_block_bits block j n = none →
      ∀ k, j ≤ k → k < j + n → block.testBit k = true := by
  intro n
  induction n with
  | zero => intro j _ k h1 h2; omega
  | succ n ih =>
    intro j h k hk1 hk2
    unfold find_free_block_bits at h
    by_cases hc : (1 <<< j) &&& block = 0
    · rw [if_pos hc] at h
      exact absurd h (by simp)
    · rw [if_neg hc] at h
      by_cases hkj : k = j
      · subst hkj
        cases hb : block.testBit k
        · exact absurd ((two_pow_and_eq_zero _ _).2 hb) hc
        · rfl
      · exact ih (j + 1) h k (by omega) (by omega)

/-- What the word loop of `pmm_find_free_block` returns: `-1`, or, as an `int`, the
index of the first clear bit at or after word `i`. -/
theorem find_free_block_words_spec (bm : Nat → Nat) :
    ∀ n i,
      find_free_block_words bm i n = -1 ∨
      ∃ r : Nat, find_free_block_words bm i n = toInt32 r ∧ 32 * i ≤ r ∧ r < 32 * (i + n) ∧
        bitmap_test bm r = false ∧ ∀ k : Nat, 32 * i ≤ k → k < r → bitmap_test bm k = true := by
  intro n
  induction n with
  | zero => intro i; left; rfl
  | succ n ih =>
    intro i
    have hrec : find_free_block_words bm (i + 1) n = -1 ∨
        ∃ r : Nat, find_free_block_words bm (i + 1) n = toInt32 r ∧ 32 * i ≤ r ∧
          r < 32 * (i + (n + 1)) ∧ bitmap_test bm r = false ∧
          ((∀ j, j < 32 → (bm i).testBit j = true) →
            ∀ k : Nat, 32 * i ≤ k → k < r → bitmap_test bm k = true) := by
      rcases ih (i + 1) with h | ⟨r, h1, h2, h3, h4, h5⟩
      · left; exact h
      · right
        refine ⟨r, h1, by omega, by omega, h4, ?_⟩
        intro hfull k hk1 hk2
        by_cases hk : k < 32 * (i + 1)
        · have : k = 32 * i + (k - 32 * i) := by omega
          rw [this, bitmap_test_word bm i _ (by omega)]
          exact hfull _ (by omega)
        · exact h5 k (by omega) hk2
    unfold find_free_block_words
    by_cases hne : bm i ≠ 0xFFFFFFFF
    · rw [if_pos hne]
      cases hf : find_free_block_bits (bm i) 0 32 with
      | some j =>
        obtain ⟨_, hj2, hj3, hj4⟩ := find_free_block_bits_some (bm i) 32 0 j hf
        right
        refine ⟨32 * i + j, ?_, by omega, by omega, ?_, ?_⟩
        · simp only [toInt32_mod]
        · rw [bitmap_test_word bm i j (by omega)]; exact hj3
        · intro k hk1 hk2
          have : k = 32 * i + (k - 32 * i) := by omega
          rw [this, bitmap_test_word bm i _ (by omega)]
          exact hj4 _ (by omega) (by omega)
      | none =>
        have hfull := find_free_block_bits_none (bm i) 32 0 hf
        rcases hrec with h | ⟨r, h1, h2, h3, h4, h5⟩
        · left; exact h
        · right
          exact ⟨r, h1, h2, h3, h4, h5 (fun j hj => hfull j (by omega) (by omega))⟩
    · rw [if_neg hne]
      have hfull : bm i = 0xFFFFFFFF := by
        by_contra h; exact hne h
      rcases hrec with h | ⟨r, h1, h2, h3, h4, h5⟩
      · left; exact h
      · right
        refine ⟨r, h1, h2, h3, h4, h5 ?_⟩
        intro j hj
        rw [hfull]
        exact word_full_bits j hj

/-- When the word loop returns `-1`, every scanned bit is set. -/
theorem find_free_block_words_neg_bits (bm : Nat → Nat) :
    ∀ n i, 32 * (i + n) < 2 ^ 32 → find_free_block_words bm i n = -1 →
      ∀ k : Nat, 32 * i ≤ k → k < 32 * (i + n) → bitmap_test bm k = true := by
  intro n
  induction n with
  | zero => intro i _ _ k h1 h2; omega
  | succ n ih =>
    intro i hb h k hk1 hk2
    unfold find_free_block_words at h
    have hword : (∀ j, j < 32 → (bm i).testBit j = true) →
        find_free_block_words bm (i + 1) n = -1 → bitmap_test bm k = true := by
      intro hfull hrec
      by_cases hk : k < 32 * (i + 1)
      · have : k = 32 * i + (k - 32 * i) := by omega
        rw [this, bitmap_test_word bm i _ (by omega)]
        exact hfull _ (by omega)
      · exact ih (i + 1) (by omega) hrec k (by omega) (by omega)
    by_cases hne : bm i ≠ 0xFFFFFFFF
    · rw [if_pos hne] at h
      cases hf : find_free_block_bits (bm i) 0 32 with
      | some j =>
        rw [hf] at h
        simp only [toInt32_mod] at h
        obtain ⟨_, hj2, _, _⟩ := find_free_block_bits_some (bm i) 32 0 j hf
        exact absurd h (toInt32_ne_neg_one _ (by omega))
      | none =>
        rw [hf] at h
        have hfull := find_free_block_bits_none (bm i) 32 0 hf
        exact hword (fun j hj => hfull j (by omega) (by omega)) h
    · rw [if_neg hne] at h
      have hfull : bm i = 0xFFFFFFFF := by
        by_contra hc; exact hne hc
      exact hword (fun j hj => by rw [hfull]; exact word_full_bits j hj) h

/-! ## `pmm_alloc_block` -/

/-- The fast-path guard of both allocation functions fires exactly when the two
counters are equal. -/
theorem guard_iff (s : PmmState) (hwf : s.WF) :
    (s.phys_block_count + 2 ^ 32 - s.phys_used_block_count) % 2 ^ 32 ≤ 0 ↔
      s.phys_used_block_count = s.phys_block_count := by
  obtain ⟨_, h1, h2⟩ := hwf
  omega

/-- The scan result of `pmm_find_free_block`: `-1`, or the first clear bit of the
scanned words. -/
theorem pmm_find_free_block_cases (s : PmmState) :
    pmm_find_free_block s = -1 ∨
    ∃ r : Nat, pmm_find_free_block s = toInt32 r ∧ r < 32 * (s.phys_block_count / 32) ∧
      bitmap_test s.phys_memory_bitmap r = false ∧
      ∀ k : Nat, k < r → bitmap_test s.phys_memory_bitmap k = true := by
  rcases find_free_block_words_spec s.phys_memory_bitmap (s.phys_block_count / 32) 0
      with h | ⟨r, h1, _, h3, h4, h5⟩
  · left; exact h
  · right
    exact ⟨r, h1, by omega, h4, fun k hk => h5 k (by omega) hk⟩

/-- First fit: the lowest clear bit of the scanned words is what the scan returns. -/
theorem pmm_find_free_block_eq (s : PmmState) (hc : s.phys_block_count < 2 ^ 32) (m : Nat)
    (hm : m < 32 * (s.phys_block_count / 32))
    (hfree : bitmap_test s.phys_memory_bitmap m = false)
    (hlow : ∀ k : Nat, k < m → bitmap_test s.phys_memory_bitmap k = true) :
    pmm_find_free_block s = toInt32 m := by
  unfold pmm_find_free_block
  rcases find_free_block_words_spec s.phys_memory_bitmap (s.phys_block_count / 32) 0
      with h | ⟨r, h1, _, _, h4, h5⟩
  · have := find_free_block_words_neg_bits s.phys_memory_bitmap _ 0 (by omega) h m
      (by omega) (by omega)
    rw [hfree] at this
    exact absurd this (by simp)
  · rw [h1]
    have : r = m := by
      rcases Nat.lt_trichotomy r m with h | h | h
      · have := hlow r h; rw [h4] at this; exact absurd this (by simp)
      · exact h
      · have := h5 m (by omega) h; rw [hfree] at this; exact absurd this (by simp)
    rw [this]

theorem pmm_alloc_block_fail_guard (bs : Nat) (s : PmmState)
    (h : s.phys_used_block_count = s.phys_block_count) :
    pmm_alloc_block bs s = (0xFFFFFFFF, s) := by
  unfold pmm_alloc_block
  have : (s.phys_block_count + 2 ^ 32 - s.phys_used_block_count) % 2 ^ 32 ≤ 0 := by
    rw [h, Nat.add_sub_cancel_left]; simp
  rw [if_pos this]

theorem pmm_alloc_block_fail_find (bs : Nat) (s : PmmState)
    (h : pmm_find_free_block s = -1) :
    pmm_alloc_block bs s = (0xFFFFFFFF, s) := by
  unfold pmm_alloc_block
  split
  · rfl
  · simp only [h, if_true]

theorem pmm_alloc_block_ok (bs : Nat) (s : PmmState) (hwf : s.WF)
    (hg : s.phys_used_block_count ≠ s.phys_block_count) (r : Nat) (hlt : r < 2 ^ 32 - 1)
    (hr : pmm_find_free_block s = toInt32 r) :
    pmm_alloc_block bs s = ((r * bs) % 2 ^ 32,
      { s with
        phys_memory_bitmap := bitmap_set s.phys_memory_bitmap (toInt32 r)
        phys_used_block_count := (s.phys_used_block_count + 1) % 2 ^ 32 }) := by
  unfold pmm_alloc_block
  have hguard : ¬ (s.phys_block_count + 2 ^ 32 - s.phys_used_block_count) % 2 ^ 32 ≤ 0 :=
    fun h => hg ((guard_iff s hwf).1 h)
  rw [if_neg hguard]
  have hne : ¬ (toInt32 r = -1) := toInt32_ne_neg_one r hlt
  simp only [hr, hne, if_false, toInt32_mul_mod]

/-- A product of a block index below `phys_block_count` with the block size fits
the 32-bit address when `phys_block_count * bs ≤ 2 ^ 32`. -/
theorem index_mul_lt (bs n r : Nat) (hbs : 0 < bs) (hb : n * bs ≤ 2 ^ 32) (hr : r < n) :
    r * bs < 2 ^ 32 :=
  Nat.lt_of_lt_of_le (Nat.mul_lt_mul_of_pos_right hr hbs) hb

/-- Every successful `pmm_alloc_block` call, taken apart. -/
theorem pmm_alloc_block_success (bs : Nat) (s : PmmState) (hwf : s.WF) (a : Nat)
    (s' : PmmState) (h : pmm_alloc_block bs s = (a, s')) (ha : a ≠ 0xFFFFFFFF) :
    ∃ r : Nat, s.phys_used_block_count ≠ s.phys_block_count ∧
      pmm_find_free_block s = toInt32 r ∧ r < 32 * (s.phys_block_count / 32) ∧
      bitmap_test s.phys_memory_bitmap r = false ∧
      (∀ k : Nat, k < r → bitmap_test s.phys_memory_bitmap k = true) ∧
      a = (r * bs) % 2 ^ 32 ∧
      s' = { s with
        phys_memory_bitmap := bitmap_set s.phys_memory_bitmap (toInt32 r)
        phys_used_block_count := (s.phys_used_block_count + 1) % 2 ^ 32 } := by
  have hc := hwf.2.1
  by_cases hg : s.phys_used_block_count = s.phys_block_count
  · rw [pmm_alloc_block_fail_guard bs s hg] at h
    exact absurd (congrArg Prod.fst h).symm ha
  · rcases pmm_find_free_block_cases s with hf | ⟨r, hr, h1, h2, h3⟩
    · rw [pmm_alloc_block_fail_find bs s hf] at h
      exact absurd (congrArg Prod.fst h).symm ha
    · rw [pmm_alloc_block_ok bs s hwf hg r (by omega) hr] at h
      exact ⟨r, hg, hr, h1, h2, h3, (congrArg Prod.fst h).symm, (congrArg Prod.snd h).symm⟩

theorem mkState_WF (words : List Nat) (count used : Nat)
    (hw : ∀ x ∈ words, x < 2 ^ 32) (hc : count < 2 ^ 32) (hu : used < 2 ^ 32) :
    (mkState words count used).WF := by
  refine ⟨?_, hc, hu⟩
  intro w
  show words.getD w 0 < 2 ^ 32
  by_cases h : w < words.length
  · rw [List.getD_eq_getElem _ _ h]
    exact hw _ (List.getElem_mem h)
  · rw [List.getD_eq_default _ _ (by omega)]
    decide

/-! ## The run scan -/

theorem two_pow_and_ne_zero (w j : Nat) : ((1 <<< j) &&& w ≠ 0) ↔ w.testBit j = true := by
  rw [Ne, two_pow_and_eq_zero]
  cases w.testBit j <;> simp

theorem RunInv_set (bm : Nat → Nat) (count p : Nat) (st : RunScan) (hc : 1 ≤ count)
    (hinv : RunInv bm count p st) (hbit : bitmap_test bm p = true) :
    RunInv bm count (p + 1) { st with cur_block_num := 0 } := by
  obtain ⟨_, _, _, _, _, h6⟩ := hinv
  refine ⟨Nat.zero_le _, fun h => absurd rfl h, ?_, ?_, (show 0 < count by omega), ?_⟩
  · intro k h1 h2
    simp only at h1 h2
    omega
  · intro _
    simpa using hbit
  · intro s0 hs0 hrun
    by_cases h : s0 + count ≤ p
    · exact h6 s0 h hrun
    · have := hrun p (by omega) (by omega)
      rw [hbit] at this
      exact absurd this (by simp)

theorem RunInv_clear_cont (bm : Nat → Nat) (count p : Nat) (st st' : RunScan)
    (hinv : RunInv bm count p st) (hbit : bitmap_test bm p = false)
    (hcur : st'.cur_block_num = st.cur_block_num + 1)
    (hstart : 32 * st'.starting_block + st'.starting_block_bit =
      ((p - st.cur_block_num : Nat) : Int))
    (hne : st.cur_block_num + 1 ≠ count) :
    RunInv bm count (p + 1) st' := by
  obtain ⟨h1, _, h3, h4, h5, h6⟩ := hinv
  have hsub : p + 1 - st'.cur_block_num = p - st.cur_block_num := by omega
  refine ⟨by omega, ?_, ?_, ?_, by omega, ?_⟩
  · intro _
    rw [hstart, hsub]
  · intro k hk1 hk2
    rw [hsub] at hk1 hk2
    by_cases hkp : k = p
    · rw [hkp]; exact hbit
    · exact h3 k hk1 (by omega)
  · intro hlt
    have : p + 1 - st'.cur_block_num - 1 = p - st.cur_block_num - 1 := by omega
    rw [this]
    exact h4 (by omega)
  · intro s0 hs0 hrun
    by_cases h : s0 + count ≤ p
    · exact h6 s0 h hrun
    · have hset := h4 (by omega)
      have := hrun (p - st.cur_block_num - 1) (by omega) (by omega)
      rw [hset] at this
      exact absurd this (by simp)

theorem RunInv_clear_done (bm : Nat → Nat) (count p : Nat) (st : RunScan) (r : Int)
    (hinv : RunInv bm count p st) (hbit : bitmap_test bm p = false)
    (hstart : r = toInt32 (p - st.cur_block_num))
    (heq : st.cur_block_num + 1 = count) :
    RunPost bm count (p + 1) r := by
  obtain ⟨h1, _, h3, _, _, h6⟩ := hinv
  refine ⟨p - st.cur_block_num, hstart, ?_, by omega, ?_⟩
  · intro k hk1 hk2
    by_cases hkp : k = p
    · rw [hkp]; exact hbit
    · exact h3 k hk1 (by omega)
  · intro s1 hs1
    exact h6 s1 (by omega)

/-- The bit loop of `pmm_find_free_blocks` over word `i`, from bit `j` for `n` bits:
it either returns the lowest run, or hands the invariant on to bit `j + n`. -/
theorem find_free_blocks_bits_spec (bm : Nat → Nat) (count i : Nat) (hc : 1 ≤ count) :
    ∀ n j st, j + n ≤ 32 → 32 * i + j + n < 2 ^ 32 → RunInv bm count (32 * i + j) st →
      RunResult bm count (32 * i + j + n) (find_free_blocks_bits count (bm i) i j n st) := by
  intro n
  induction n with
  | zero =>
    intro j st _ _ hinv
    exact hinv
  | succ n ih =>
    intro j st hj hlt hinv
    have hjn : 32 * i + j + (n + 1) = 32 * i + (j + 1) + n := by omega
    unfold find_free_blocks_bits
    by_cases hbit : (1 <<< j) &&& bm i ≠ 0
    · rw [if_pos hbit, hjn]
      have hset : bitmap_test bm ((32 * i + j : Nat) : Int) = true := by
        rw [bitmap_test_word bm i j (by omega)]
        exact (two_pow_and_ne_zero _ _).1 hbit
      exact ih (j + 1) _ (by omega) (by omega) (RunInv_set bm count _ st hc hinv hset)
    · rw [if_neg hbit]
      have hclr : bitmap_test bm ((32 * i + j : Nat) : Int) = false := by
        rw [bitmap_test_word bm i j (by omega)]
        cases hb : (bm i).testBit j
        · rfl
        · exact absurd ((two_pow_and_ne_zero _ _).2 hb) hbit
      have hcur := hinv.1
      have hmod : (st.cur_block_num + 1) % 2 ^ 32 = st.cur_block_num + 1 := by omega
      have hi : toInt32 i = (i : Int) := toInt32_of_lt i (by omega)
      by_cases h0 : st.cur_block_num = 0
      · simp only [h0, if_true, Nat.zero_add, hi]
        by_cases hcnt : 1 % 2 ^ 32 = count
        · rw [if_pos hcnt, hjn]
          have hval : wrapInt32 (32 * (i : Int) + (j : Int)) =
              toInt32 (32 * i + j - st.cur_block_num) := by
            rw [h0, Nat.sub_zero, ← wrapInt32_natCast]
            push_cast
            rfl
          have hdone := RunInv_clear_done bm count (32 * i + j) st
            (wrapInt32 (32 * (i : Int) + (j : Int))) hinv hclr hval (by omega)
          obtain ⟨s0, e1, e2, e3, e4⟩ := hdone
          exact ⟨s0, e1, e2, by omega, e4⟩
        · rw [if_neg hcnt, hjn]
          refine ih (j + 1) _ (by omega) (by omega) ?_
          exact RunInv_clear_cont bm count (32 * i + j) st _ hinv hclr
            (by simp [h0]) (by simp only [h0]; omega) (by omega)
      · simp only [h0, if_false, hmod]
        have hstart := hinv.2.1 h0
        by_cases hcnt : st.cur_block_num + 1 = count
        · rw [if_pos hcnt, hjn]
          have hdone := RunInv_clear_done bm count (32 * i + j) st
            (wrapInt32 (32 * st.starting_block + st.starting_block_bit)) hinv hclr
            (by rw [hstart, wrapInt32_natCast]) hcnt
          obtain ⟨s0, e1, e2, e3, e4⟩ := hdone
          exact ⟨s0, e1, e2, by omega, e4⟩
        · rw [if_neg hcnt, hjn]
          refine ih (j + 1) _ (by omega) (by omega) ?_
          exact RunInv_clear_cont bm count (32 * i + j) st _ hinv hclr rfl hstart hcnt

theorem RunInv_full (bm : Nat → Nat) (count i : Nat) (st : RunScan) (hc : 1 ≤ count)
    (hinv : RunInv bm count (32 * i) st) (hfull : bm i = 0xFFFFFFFF) :
    RunInv bm count (32 * (i + 1)) { st with cur_block_num := 0 } := by
  obtain ⟨_, _, _, _, _, h6⟩ := hinv
  have hbits : ∀ k, 32 * i ≤ k → k < 32 * (i + 1) → bitmap_test bm k = true := by
    intro k hk1 hk2
    have : k = 32 * i + (k - 32 * i) := by omega
    rw [this, bitmap_test_word bm i _ (by omega), hfull]
    exact word_full_bits _ (by omega)
  refine ⟨Nat.zero_le _, fun h => absurd rfl h, ?_, ?_, (show 0 < count by omega), ?_⟩
  · intro k h1 h2
    simp only at h1 h2
    omega
  · intro _
    exact hbits _ (by simp only; omega) (by simp only; omega)
  · intro s0 hs0 hrun
    by_cases h : s0 + count ≤ 32 * i
    · exact h6 s0 h hrun
    · have := hrun (s0 + count - 1) (by omega) (by omega)
      rw [hbits _ (by omega) (by omega)] at this
      exact absurd this (by simp)

theorem RunPost_mono (bm : Nat → Nat) (count b b' : Nat) (r : Int) (hb : b ≤ b')
    (h : RunPost bm count b r) : RunPost bm count b' r := by
  obtain ⟨s0, e1, e2, e3, e4⟩ := h
  exact ⟨s0, e1, e2, by omega, e4⟩

/-- The word loop of `pmm_find_free_blocks`, for a request of at least one block: it
returns `-1` and no run of `count` clear bits lies in the scanned words, or it returns
the start of the lowest such run. -/
theorem find_free_blocks_words_spec (bm : Nat → Nat) (count : Nat) (hc : 1 ≤ count) :
    ∀ n i st, 32 * (i + n) < 2 ^ 32 → RunInv bm count (32 * i) st →
      (find_free_blocks_words bm count i n st = -1 ∧
        ∀ s0, s0 + count ≤ 32 * (i + n) → ¬ clearRun bm s0 count) ∨
      RunPost bm count (32 * (i + n)) (find_free_blocks_words bm count i n st) := by
  intro n
  induction n with
  | zero =>
    intro i st _ hinv
    left
    exact ⟨rfl, hinv.2.2.2.2.2⟩
  | succ n ih =>
    intro i st hlt hinv
    have hin : 32 * (i + (n + 1)) = 32 * (i + 1 + n) := by omega
    unfold find_free_blocks_words
    by_cases hfull : bm i = 0xFFFFFFFF
    · rw [if_pos hfull, hin]
      exact ih (i + 1) _ (by omega) (RunInv_full bm count i st hc hinv hfull)
    · rw [if_neg hfull]
      have hbits := find_free_blocks_bits_spec bm count i hc 32 0 st (by omega) (by omega)
        (by simpa using hinv)
      cases hres : find_free_blocks_bits count (bm i) i 0 32 st with
      | inl r =>
        rw [hres] at hbits
        right
        exact RunPost_mono bm count _ _ r (by omega) hbits
      | inr st1 =>
        rw [hres] at hbits
        simp only
        rw [hin]
        exact ih (i + 1) st1 (by omega) hbits

theorem find_free_blocks_bits_zero (cur_block i : Nat) :
    ∀ n j st, 32 * i + j + n < 2 ^ 32 → st.cur_block_num ≤ 32 * i + j →
      ∃ st1, find_free_blocks_bits 0 cur_block i j n st = Sum.inr st1 ∧
        st1.cur_block_num ≤ 32 * i + j + n := by
  intro n
  induction n with
  | zero =>
    intro j st _ h
    exact ⟨st, rfl, h⟩
  | succ n ih =>
    intro j st hlt h
    have hjn : 32 * i + j + (n + 1) = 32 * i + (j + 1) + n := by omega
    unfold find_free_blocks_bits
    by_cases hbit : (1 <<< j) &&& cur_block ≠ 0
    · rw [if_pos hbit, hjn]
      exact ih (j + 1) _ (by omega) (Nat.zero_le _)
    · rw [if_neg hbit]
      have hmod : (st.cur_block_num + 1) % 2 ^ 32 = st.cur_block_num + 1 := by omega
      by_cases h0 : st.cur_block_num = 0
      · simp only [h0, if_true, Nat.zero_add]
        rw [if_neg (by decide), hjn]
        exact ih (j + 1) _ (by omega) (by simp only; omega)
      · simp only [h0, if_false, hmod]
        rw [if_neg (by omega), hjn]
        exact ih (j + 1) _ (by omega) (by simp only; omega)

/-- A request for zero blocks never finds a run: the running count is compared with
`count` only after it has been incremented. -/
theorem find_free_blocks_words_zero (bm : Nat → Nat) :
    ∀ n i st, 32 * (i + n) < 2 ^ 32 → st.cur_block_num ≤ 32 * i →
      find_free_blocks_words bm 0 i n st = -1 := by
  intro n
  induction n with
  | zero => intro i st _ _; rfl
  | succ n ih =>
    intro i st hlt h
    unfold find_free_blocks_words
    by_cases hfull : bm i = 0xFFFFFFFF
    · rw [if_pos hfull]
      exact ih (i + 1) _ (by omega) (Nat.zero_le _)
    · rw [if_neg hfull]
      obtain ⟨st1, h1, h2⟩ := find_free_blocks_bits_zero (bm i) i 32 0 st (by omega) (by omega)
      rw [h1]
      exact ih (i + 1) st1 (by omega) (by omega)

/-- The result of `pmm_find_free_blocks(count)`: `-1`, and then a request of at least
one block has no run of `count` clear bits inside the scanned words; or the start of the
lowest run of `count ≥ 1` clear bits, which ends inside the scanned words. -/
theorem pmm_find_free_blocks_cases (s : PmmState) (hc : s.phys_block_count < 2 ^ 32)
    (count : Nat) :
    (pmm_find_free_blocks s count = -1 ∧
      (1 ≤ count → ∀ s0, s0 + count ≤ 32 * (s.phys_block_count / 32) →
        ¬ clearRun s.phys_memory_bitmap s0 count)) ∨
    (1 ≤ count ∧
      RunPost s.phys_memory_bitmap count (32 * (s.phys_block_count / 32))
        (pmm_find_free_blocks s count)) := by
  unfold pmm_find_free_blocks
  by_cases h1 : 1 ≤ count
  · have hinit : RunInv s.phys_memory_bitmap count (32 * 0)
        { starting_block := -1, starting_block_bit := -1, cur_block_num := 0 } := by
      refine ⟨Nat.zero_le _, fun h => absurd rfl h, ?_, ?_, (show 0 < count by omega), ?_⟩
      · intro k h1 h2
        simp only at h1 h2
        omega
      · intro h; exact absurd h (by simp)
      · intro s0 hs0; omega
    rcases find_free_blocks_words_spec s.phys_memory_bitmap count h1
        (s.phys_block_count / 32) 0 _ (by omega) hinit with ⟨h, hno⟩ | h
    · left
      refine ⟨h, fun _ s0 hs0 => hno s0 (by omega)⟩
    · right
      refine ⟨h1, ?_⟩
      simpa using h
  · have h0 : count = 0 := by omega
    subst h0
    left
    refine ⟨find_free_blocks_words_zero _ _ 0 _ (by omega) (Nat.zero_le _), fun h => absurd h h1⟩

/-! ## `pmm_alloc_blocks`, `pmm_free_blocks` and the population count -/

/-- Bit `k` after the `bitmap_set` loop that starts at the `int` reading of `fb`: the
bits of the run are set as far as their index is below `2^31`. -/
theorem alloc_blocks_loop_test (fb : Nat) :
    ∀ (n i : Nat) (bm : Nat → Nat) (k : Nat), fb + i + n ≤ 2 ^ 32 →
      bitmap_test (alloc_blocks_loop (toInt32 fb) i n bm) (k : Int) =
        (decide (fb + i ≤ k ∧ k < fb + i + n ∧ k < 2 ^ 31) || bitmap_test bm (k : Int)) := by
  intro n
  induction n with
  | zero =>
    intro i bm k _
    have : decide (fb + i ≤ k ∧ k < fb + i + 0 ∧ k < 2 ^ 31) = false := by
      rw [decide_eq_false_iff_not]; omega
    rw [this]
    rfl
  | succ n ih =>
    intro i bm k hb
    unfold alloc_blocks_loop
    rw [ih (i + 1) _ k (by omega), wrapInt32_toInt32_add, bitmap_test_set_int]
    have hx : ((k : Int) = toInt32 (fb + i)) ↔ (k = fb + i ∧ fb + i < 2 ^ 31) := by
      rw [eq_comm]
      exact toInt32_eq_natCast _ _ (by omega)
    have harith : ((fb + (i + 1) ≤ k ∧ k < fb + (i + 1) + n ∧ k < 2 ^ 31) ∨
        (k = fb + i ∧ fb + i < 2 ^ 31)) ↔
        (fb + i ≤ k ∧ k < fb + i + (n + 1) ∧ k < 2 ^ 31) := by omega
    rw [Bool.eq_iff_iff]
    simp only [Bool.or_eq_true, decide_eq_true_eq, hx]
    rw [← or_assoc, harith]

/-- Bit `k` after the `bitmap_unset` loop that starts at the `int` reading of `block`. -/
theorem free_blocks_loop_test (block : Nat) :
    ∀ (n i : Nat) (bm : Nat → Nat) (k : Nat), block + i + n ≤ 2 ^ 32 →
      bitmap_test (free_blocks_loop (toInt32 block) i n bm) (k : Int) =
        (!decide (block + i ≤ k ∧ k < block + i + n ∧ k < 2 ^ 31) &&
          bitmap_test bm (k : Int)) := by
  intro n
  induction n with
  | zero =>
    intro i bm k _
    have : decide (block + i ≤ k ∧ k < block + i + 0 ∧ k < 2 ^ 31) = false := by
      rw [decide_eq_false_iff_not]; omega
    rw [this]
    rfl
  | succ n ih =>
    intro i bm k hb
    unfold free_blocks_loop
    rw [ih (i + 1) _ k (by omega), wrapInt32_toInt32_add, bitmap_test_unset_int]
    have hx : ((k : Int) = toInt32 (block + i)) ↔ (k = block + i ∧ block + i < 2 ^ 31) := by
      rw [eq_comm]
      exact toInt32_eq_natCast _ _ (by omega)
    have harith : (¬ (block + (i + 1) ≤ k ∧ k < block + (i + 1) + n ∧ k < 2 ^ 31) ∧
        ¬ (k = block + i ∧ block + i < 2 ^ 31)) ↔
        ¬ (block + i ≤ k ∧ k < block + i + (n + 1) ∧ k < 2 ^ 31) := by omega
    rw [Bool.eq_iff_iff]
    simp only [Bool.and_eq_true, Bool.not_eq_true', decide_eq_false_iff_not, hx]
    rw [← and_assoc, harith]

theorem alloc_blocks_loop_in (fb n : Nat) (bm : Nat → Nat) (k : Nat) (hb : fb + n ≤ 2 ^ 31)
    (h1 : fb ≤ k) (h2 : k < fb + n) :
    bitmap_test (alloc_blocks_loop (toInt32 fb) 0 n bm) (k : Int) = true := by
  rw [alloc_blocks_loop_test fb n 0 bm k (by omega)]
  have : decide (fb + 0 ≤ k ∧ k < fb + 0 + n ∧ k < 2 ^ 31) = true := by
    rw [decide_eq_true_iff]; omega
  rw [this]; rfl

theorem alloc_blocks_loop_out (fb n : Nat) (bm : Nat → Nat) (k : Nat) (hb : fb + n ≤ 2 ^ 32)
    (h : ¬ (fb ≤ k ∧ k < fb + n)) :
    bitmap_test (alloc_blocks_loop (toInt32 fb) 0 n bm) (k : Int) = bitmap_test bm (k : Int) := by
  rw [alloc_blocks_loop_test fb n 0 bm k (by omega)]
  have : decide (fb + 0 ≤ k ∧ k < fb + 0 + n ∧ k < 2 ^ 31) = false := by
    rw [decide_eq_false_iff_not]; omega
  rw [this]; rfl

theorem free_blocks_loop_in (block n : Nat) (bm : Nat → Nat) (k : Nat)
    (hb : block + n ≤ 2 ^ 31) (h1 : block ≤ k) (h2 : k < block + n) :
    bitmap_test (free_blocks_loop (toInt32 block) 0 n bm) (k : Int) = false := by
  rw [free_blocks_loop_test block n 0 bm k (by omega)]
  have : decide (block + 0 ≤ k ∧ k < block + 0 + n ∧ k < 2 ^ 31) = true := by
    rw [decide_eq_true_iff]; omega
  rw [this]; rfl

theorem free_blocks_loop_out (block n : Nat) (bm : Nat → Nat) (k : Nat)
    (hb : block + n ≤ 2 ^ 32) (h : ¬ (block ≤ k ∧ k < block + n)) :
    bitmap_test (free_blocks_loop (toInt32 block) 0 n bm) (k : Int) =
      bitmap_test bm (k : Int) := by
  rw [free_blocks_loop_test block n 0 bm k (by omega)]
  have : decide (block + 0 ≤ k ∧ k < block + 0 + n ∧ k < 2 ^ 31) = false := by
    rw [decide_eq_false_iff_not]; omega
  rw [this]; rfl

/-- Two bitmaps that differ exactly on the bits `[a, a + c)`, set in one and clear in
the other: the population counts over `[0, n)` differ by the part of the run below `n`. -/
theorem popcount_run (bm bm' : Nat → Nat) (a c : Nat)
    (hin : ∀ k : Nat, a ≤ k → k < a + c →
      bitmap_test bm' (k : Int) = true ∧ bitmap_test bm (k : Int) = false)
    (hout : ∀ k : Nat, ¬ (a ≤ k ∧ k < a + c) →
      bitmap_test bm' (k : Int) = bitmap_test bm (k : Int)) :
    ∀ n, popcount bm' n = popcount bm n + (min (a + c) n - min a n) := by
  intro n
  induction n with
  | zero => simp [popcount]
  | succ n ih =>
    unfold popcount
    rw [ih]
    by_cases h : a ≤ n ∧ n < a + c
    · obtain ⟨h1, h2⟩ := hin n h.1 h.2
      simp only [h1, h2, if_true]
      simp only [Bool.false_eq_true, if_false]
      omega
    · rw [hout n h]
      have : min (a + c) (n + 1) - min a (n + 1) = min (a + c) n - min a n := by omega
      rw [this]
      omega

theorem popcount_le (bm : Nat → Nat) : ∀ n, popcount bm n ≤ n := by
  intro n
  induction n with
  | zero => simp [popcount]
  | succ n ih =>
    unfold popcount
    split <;> omega

theorem popcount_all (bm : Nat → Nat) :
    ∀ n, (∀ k : Nat, k < n → bitmap_test bm (k : Int) = true) → popcount bm n = n := by
  intro n
  induction n with
  | zero => intro _; rfl
  | succ n ih =>
    intro h
    unfold popcount
    rw [ih (fun k hk => h k (by omega)), h n (by omega)]
    simp

/-- Clear bits at the end of the range add nothing to the population count. -/
theorem popcount_clear_tail (bm : Nat → Nat) (n : Nat) :
    ∀ m, (∀ k : Nat, n ≤ k → k < n + m → bitmap_test bm (k : Int) = false) →
      popcount bm (n + m) = popcount bm n := by
  intro m
  induction m with
  | zero => intro _; rfl
  | succ m ih =>
    intro h
    show popcount bm (n + m) + (if bitmap_test bm ((n + m : Nat) : Int) then 1 else 0) = _
    rw [ih (fun k h1 h2 => h k h1 (by omega)), h (n + m) (by omega) (by omega)]
    simp

theorem pmm_alloc_blocks_fail_guard (bs : Nat) (s : PmmState) (count : Nat)
    (h : s.phys_used_block_count = s.phys_block_count) :
    pmm_alloc_blocks bs s count = (0xFFFFFFFF, s) := by
  unfold pmm_alloc_blocks
  have : (s.phys_block_count + 2 ^ 32 - s.phys_used_block_count) % 2 ^ 32 ≤ 0 := by
    rw [h, Nat.add_sub_cancel_left]; simp
  rw [if_pos this]

theorem pmm_alloc_blocks_fail_find (bs : Nat) (s : PmmState) (count : Nat)
    (h : pmm_find_free_blocks s count = -1) :
    pmm_alloc_blocks bs s count = (0xFFFFFFFF, s) := by
  unfold pmm_alloc_blocks
  split
  · rfl
  · simp only [h, if_true]

theorem pmm_alloc_blocks_ok (bs : Nat) (s : PmmState) (hwf : s.WF) (count : Nat)
    (hg : s.phys_used_block_count ≠ s.phys_block_count) (r : Nat) (hlt : r < 2 ^ 32 - 1)
    (hr : pmm_find_free_blocks s count = toInt32 r) :
    pmm_alloc_blocks bs s count = ((r * bs) % 2 ^ 32,
      { s with
        phys_memory_bitmap := alloc_blocks_loop (toInt32 r) 0 count s.phys_memory_bitmap
        phys_used_block_count := (s.phys_used_block_count + count) % 2 ^ 32 }) := by
  unfold pmm_alloc_blocks
  have hguard : ¬ (s.phys_block_count + 2 ^ 32 - s.phys_used_block_count) % 2 ^ 32 ≤ 0 :=
    fun h => hg ((guard_iff s hwf).1 h)
  rw [if_neg hguard]
  have hne : ¬ (toInt32 r = -1) := toInt32_ne_neg_one r hlt
  simp only [hr, hne, if_false, toInt32_mul_mod]

/-- Every successful `pmm_alloc_blocks` call, taken apart. -/
theorem pmm_alloc_blocks_success (bs : Nat) (s : PmmState) (hwf : s.WF) (count a : Nat)
    (s' : PmmState) (h : pmm_alloc_blocks bs s count = (a, s')) (ha : a ≠ 0xFFFFFFFF) :
    ∃ r : Nat, s.phys_used_block_count ≠ s.phys_block_count ∧ 1 ≤ count ∧
      pmm_find_free_blocks s count = toInt32 r ∧
      clearRun s.phys_memory_bitmap r count ∧
      r + count ≤ 32 * (s.phys_block_count / 32) ∧
      (∀ s1, s1 < r → ¬ clearRun s.phys_memory_bitmap s1 count) ∧
      a = (r * bs) % 2 ^ 32 ∧
      s' = { s with
        phys_memory_bitmap := alloc_blocks_loop (toInt32 r) 0 count s.phys_memory_bitmap
        phys_used_block_count := (s.phys_used_block_count + count) % 2 ^ 32 } := by
  have hc := hwf.2.1
  by_cases hg : s.phys_used_block_count = s.phys_block_count
  · rw [pmm_alloc_blocks_fail_guard bs s count hg] at h
    exact absurd (congrArg Prod.fst h).symm ha
  · rcases pmm_find_free_blocks_cases s hwf.2.1 count with ⟨hf, _⟩ | ⟨h1, r, hr, e2, e3, e4⟩
    · rw [pmm_alloc_blocks_fail_find bs s count hf] at h
      exact absurd (congrArg Prod.fst h).symm ha
    · rw [pmm_alloc_blocks_ok bs s hwf count hg r (by omega) hr] at h
      exact ⟨r, hg, h1, hr, e2, e3, e4, (congrArg Prod.fst h).symm, (congrArg Prod.snd h).symm⟩

/-! ## The claims about the allocation functions -/

theorem alloc_blocks_loop_lt (fb : Int) :
    ∀ n i bm, (∀ w, bm w < 2 ^ 32) → ∀ w, alloc_blocks_loop fb i n bm w < 2 ^ 32 := by
  intro n
  induction n with
  | zero => intro i bm h w; exact h w
  | succ n ih =>
    intro i bm h w
    unfold alloc_blocks_loop
    exact ih (i + 1) _ (bitmap_set_lt bm _ h) w

theorem free_blocks_loop_lt (block : Int) :
    ∀ n i bm, (∀ w, bm w < 2 ^ 32) → ∀ w, free_blocks_loop block i n bm w < 2 ^ 32 := by
  intro n
  induction n with
  | zero => intro i bm h w; exact h w
  | succ n ih =>
    intro i bm h w
    unfold free_blocks_loop
    exact ih (i + 1) _ (bitmap_unset_lt bm _ h) w

/-- Two arrays of 32-bit words with the same bits are the same array. -/
theorem bitmap_ext (bm bm' : Nat → Nat) (h : ∀ w, bm w < 2 ^ 32) (h' : ∀ w, bm' w < 2 ^ 32)
    (hbits : ∀ k : Nat, bitmap_test bm (k : Int) = bitmap_test bm' (k : Int)) : bm = bm' := by
  funext w
  apply Nat.eq_of_testBit_eq
  intro j
  by_cases hj : j < 32
  · have := hbits (32 * w + j)
    rw [bitmap_test_word bm w j hj, bitmap_test_word bm' w j hj] at this
    exact this
  · have hpow : 2 ^ 32 ≤ 2 ^ j := Nat.pow_le_pow_right (by decide) (by omega)
    rw [Nat.testBit_lt_two_pow (Nat.lt_of_lt_of_le (h w) hpow),
      Nat.testBit_lt_two_pow (Nat.lt_of_lt_of_le (h' w) hpow)]

/-- A bit that is clear at index `r` is clear at the `int` reading of `r`, which is `r`
itself or negative. -/
theorem bitmap_test_toInt32 (bm : Nat → Nat) (r : Nat) (hr : r < 2 ^ 32)
    (h : bitmap_test bm (r : Int) = false) : bitmap_test bm (toInt32 r) = false := by
  by_cases hlt : r < 2 ^ 31
  · rw [toInt32_of_lt r hlt]
    exact h
  · apply bitmap_test_neg
    rw [toInt32_of_ge r (by omega) hr]
    omega

theorem wrapState_low (k : Nat) (hk : k < 1048576) :
    bitmap_test wrapState.phys_memory_bitmap (k : Int) = true := by
  rw [bitmap_test_eq]
  show (if k / 32 < 32768 then (0xFFFFFFFF : Nat) else 0).testBit (k % 32) = true
  rw [if_pos (by omega)]
  exact word_full_bits _ (Nat.mod_lt _ (by decide))

theorem wrapState_WF : wrapState.WF := by
  refine ⟨?_, by decide, by decide⟩
  intro w
  show (if w < 32768 then (0xFFFFFFFF : Nat) else 0) < 2 ^ 32
  split <;> decide

theorem bigState_low (k : Nat) (hk : k < 2147483648) :
    bitmap_test bigState.phys_memory_bitmap (k : Int) = true := by
  rw [bitmap_test_eq]
  show (if k / 32 < 67108864 then (0xFFFFFFFF : Nat) else 0).testBit (k % 32) = true
  rw [if_pos (by omega)]
  exact word_full_bits _ (Nat.mod_lt _ (by decide))

theorem bigState_high (k : Nat) (hk : 2147483648 ≤ k) :
    bitmap_test bigState.phys_memory_bitmap (k : Int) = false := by
  rw [bitmap_test_eq]
  show (if k / 32 < 67108864 then (0xFFFFFFFF : Nat) else 0).testBit (k % 32) = false
  rw [if_neg (by omega)]
  exact Nat.zero_testBit _

theorem bigState_WF : bigState.WF := by
  refine ⟨?_, by decide, by decide⟩
  intro w
  show (if w < 67108864 then (0xFFFFFFFF : Nat) else 0) < 2 ^ 32
  split <;> decide

theorem bigState_popcount :
    popcount bigState.phys_memory_bitmap 2147483680 = 2147483648 := by
  have e : (2147483680 : Nat) = 2147483648 + 32 := by decide
  rw [e, popcount_clear_tail _ _ 32 (fun k h1 _ => bigState_high k h1)]
  exact popcount_all _ _ (fun k hk => bigState_low k hk)

theorem bigState_find : pmm_find_free_block bigState = toInt32 2147483648 :=
  pmm_find_free_block_eq bigState (by decide) 2147483648 (by decide)
    (bigState_high 2147483648 (Nat.le_refl _)) (fun k hk => bigState_low k hk)

set_option maxRecDepth 100000 in
/-- C1 at a failing input: 32 blocks, all free in the bitmap, and the used counter at
`0xFFFFFFFF`, above the total.  The guard `phys_block_count - phys_used_block_count <= 0`
is an unsigned comparison and does not fire, `pmm_alloc_block()` returns address 0, and
the counter wraps to 0 instead of being one more than before.  The last part shows the
module reaching such a state by itself: `pmm_init` on one usable range of 32 blocks, with
a kernel of 2 KiB at address 0, ends with the counter at `0xFFFFFFFF` (blocks 0 and 1
marked), and the next `pmm_alloc_block()` returns `0x2000` with the counter at 0. -/
theorem C1_used_count_wraps :
    (mkState [0] 32 0xFFFFFFFF).WF ∧
    (mkState [0] 32 0xFFFFFFFF).phys_block_count * 4096 ≤ 2 ^ 32 ∧
    (mkState [0] 32 0xFFFFFFFF).phys_used_block_count >
      (mkState [0] 32 0xFFFFFFFF).phys_block_count ∧
    (pmm_alloc_block 4096 (mkState [0] 32 0xFFFFFFFF)).1 = 0 ∧
    (pmm_alloc_block 4096 (mkState [0] 32 0xFFFFFFFF)).1 ≠ 0xFFFFFFFF ∧
    (pmm_alloc_block 4096 (mkState [0] 32 0xFFFFFFFF)).2.phys_used_block_count = 0 ∧
    (pmm_alloc_block 4096 (mkState [0] 32 0xFFFFFFFF)).2.phys_used_block_count ≠
      (mkState [0] 32 0xFFFFFFFF).phys_used_block_count + 1 ∧
    (pmm_init (stdConfig 0 0x800 0x800) (memOf 0x9000 24 [mkEntry 0 0x20000 1])
        (fun _ => 0) (mbAt 1) 1 bootState).map
      (fun s => (s.phys_block_count, s.phys_used_block_count, s.phys_memory_bitmap 0,
        (pmm_alloc_block 4096 s).1,
        (pmm_alloc_block 4096 s).2.phys_used_block_count)) =
      some (32, 0xFFFFFFFF, 3, 0x2000, 0) := by
  refine ⟨mkState_WF _ _ _ (by decide) (by decide) (by decide), by decide, by decide,
    by decide, by decide, by decide, by decide, by decide⟩

set_option maxRecDepth 100000 in
/-- C2 at a failing input: the state of C1 (32 free blocks, the used counter at
`0xFFFFFFFF`).  The guard does not fire, `pmm_alloc_blocks(2)` returns address 0, and the
counter wraps to 1 instead of growing by two.  The last part shows the module reaching
such a state by itself: after `pmm_init` on one usable range of 32 blocks, with a kernel
of 2 KiB at address 0, the counter is `0xFFFFFFFF` (blocks 0 and 1 marked), and
`pmm_alloc_blocks(2)` returns `0x2000` with the counter at 1. -/
theorem C2_used_count_wraps :
    (mkState [0] 32 0xFFFFFFFF).WF ∧
    (mkState [0] 32 0xFFFFFFFF).phys_block_count * 4096 ≤ 2 ^ 32 ∧
    (mkState [0] 32 0xFFFFFFFF).phys_used_block_count >
      (mkState [0] 32 0xFFFFFFFF).phys_block_count ∧
    (pmm_alloc_blocks 4096 (mkState [0] 32 0xFFFFFFFF) 2).1 = 0 ∧
    (pmm_alloc_blocks 4096 (mkState [0] 32 0xFFFFFFFF) 2).1 ≠ 0xFFFFFFFF ∧
    (pmm_alloc_blocks 4096 (mkState [0] 32 0xFFFFFFFF) 2).2.phys_used_block_count = 1 ∧
    (pmm_alloc_blocks 4096 (mkState [0] 32 0xFFFFFFFF) 2).2.phys_used_block_count ≠
      (mkState [0] 32 0xFFFFFFFF).phys_used_block_count + 2 ∧
    (pmm_init (stdConfig 0 0x800 0x800) (memOf 0x9000 24 [mkEntry 0 0x20000 1])
        (fun _ => 0) (mbAt 1) 1 bootState).map
      (fun s => (s.phys_block_count, s.phys_used_block_count, s.phys_memory_bitmap 0,
        (pmm_alloc_blocks 4096 s 2).1,
        (pmm_alloc_blocks 4096 s 2).2.phys_used_block_count)) =
      some (32, 0xFFFFFFFF, 3, 0x2000, 1) := by
  refine ⟨mkState_WF _ _ _ (by decide) (by decide) (by decide), by decide, by decide,
    by decide, by decide, by decide, by decide, by decide⟩

/-- C3: for a well-typed state with `phys_block_count * PHYS_BLOCK_SIZE ≤ 2^32`, if
`pmm_alloc_block` returns an address `a` other than `0xFFFFFFFF`, then
`pmm_free_block(a)` right after it restores `phys_used_block_count`, makes
`pmm_is_block_alloced(a)` false and leaves the bitmap equal to the bitmap before the
allocation. -/
theorem C3_alloc_free_round_trip (bs : Nat) (s : PmmState) (hwf : s.WF) (hbs : 0 < bs)
    (hb : s.phys_block_count * bs ≤ 2 ^ 32) (a : Nat) (s' : PmmState)
    (h : pmm_alloc_block bs s = (a, s')) (ha : a ≠ 0xFFFFFFFF) :
    (pmm_free_block bs s' a).phys_used_block_count = s.phys_used_block_count ∧
    pmm_is_block_alloced bs (pmm_free_block bs s' a) a = false ∧
    (pmm_free_block bs s' a).phys_memory_bitmap = s.phys_memory_bitmap := by
  obtain ⟨r, _, _, hr1, hr2, _, hra, hs'⟩ := pmm_alloc_block_success bs s hwf a s' h ha
  have hc := hwf.2.1
  have hrlt : r < s.phys_block_count := by omega
  have hmul : r * bs < 2 ^ 32 := index_mul_lt bs _ r hbs hb hrlt
  have hdiv : a / bs = r := by
    rw [hra, Nat.mod_eq_of_lt hmul, Nat.mul_div_cancel r hbs]
  subst hs'
  have hfree : bitmap_test s.phys_memory_bitmap (toInt32 r) = false :=
    bitmap_test_toInt32 _ r (by omega) hr2
  have hbm : bitmap_unset (bitmap_set s.phys_memory_bitmap (toInt32 r)) (toInt32 r) =
      s.phys_memory_bitmap :=
    bitmap_unset_set_int _ _ hwf.1 hfree
  refine ⟨?_, ?_, ?_⟩
  · have := hwf.2.2
    show ((s.phys_used_block_count + 1) % 2 ^ 32 + 2 ^ 32 - 1) % 2 ^ 32 = s.phys_used_block_count
    omega
  · unfold pmm_is_block_alloced pmm_free_block
    simp only [hdiv, hbm]
    exact hfree
  · unfold pmm_free_block
    simp only [hdiv, hbm]

theorem C3_alloc_free_round_trip_witness :
    (pmm_free_block 4096 (pmm_alloc_block 4096 (mkState [0xFFFFFFDF] 32 31)).2
      (pmm_alloc_block 4096 (mkState [0xFFFFFFDF] 32 31)).1).phys_used_block_count = 31 ∧
    (pmm_alloc_block 4096 (mkState [0xFFFFFFDF] 32 31)).1 = 5 * 4096 :=
  ⟨(C3_alloc_free_round_trip 4096 (mkState [0xFFFFFFDF] 32 31)
      (mkState_WF _ _ _ (by decide) (by decide) (by decide)) (by decide) (by decide)
      _ _ rfl (by decide)).1, by decide⟩

/-- C4 at a failing input: `2^31 + 32` blocks of which the first `2^31` are in use, the
used counter equal to the number of set bits.  `pmm_find_free_block()` computes the
index `2^31` and returns it as the `int` `-2^31`; `bitmap_set(-2^31)` addresses
`phys_memory_bitmap[-2^26]` and leaves the bitmap as it was, while
`phys_used_block_count` grows to `2^31 + 1`: after `pmm_alloc_block()` the counter is no
longer the number of set bits. -/
theorem C4_count_leaves_popcount :
    bigState.WF ∧
    bigState.phys_used_block_count =
      popcount bigState.phys_memory_bitmap bigState.phys_block_count ∧
    pmm_find_free_block bigState = -2147483648 ∧
    (pmm_alloc_block 4096 bigState).1 = 0 ∧
    (pmm_alloc_block 4096 bigState).2.phys_memory_bitmap = bigState.phys_memory_bitmap ∧
    (pmm_alloc_block 4096 bigState).2.phys_used_block_count = 2147483649 ∧
    popcount (pmm_alloc_block 4096 bigState).2.phys_memory_bitmap
      (pmm_alloc_block 4096 bigState).2.phys_block_count = 2147483648 := by
  have hg : bigState.phys_used_block_count ≠ bigState.phys_block_count := by decide
  have halloc := pmm_alloc_block_ok 4096 bigState bigState_WF hg 2147483648 (by decide)
    bigState_find
  have hv : toInt32 2147483648 = -2147483648 := by decide
  have hfind := bigState_find
  rw [hv] at halloc hfind
  rw [halloc, bitmap_set_neg _ _ (by decide)]
  exact ⟨bigState_WF, bigState_popcount.symm, hfind, by decide, rfl, by decide,
    bigState_popcount⟩

/-- C5 at a failing input: 4096-byte blocks, `2^20 + 32` blocks, the first `2^20` in
use.  The smallest index whose bit is clear is `2^20`, `pmm_find_free_block()` returns
it, and `pmm_alloc_block()` returns address 0, not `2^20 * 4096`: the product is stored
in a `uint32_t`. -/
theorem C5_first_fit_address_wraps :
    wrapState.WF ∧
    wrapState.phys_used_block_count ≠ wrapState.phys_block_count ∧
    1048576 < 32 * (wrapState.phys_block_count / 32) ∧
    bitmap_test wrapState.phys_memory_bitmap 1048576 = false ∧
    (∀ k : Nat, k < 1048576 → bitmap_test wrapState.phys_memory_bitmap (k : Int) = true) ∧
    pmm_find_free_block wrapState = 1048576 ∧
    (pmm_alloc_block 4096 wrapState).1 = 0 ∧
    (pmm_alloc_block 4096 wrapState).1 ≠ 1048576 * 4096 := by
  have hv : toInt32 1048576 = 1048576 := by decide
  have hfind : pmm_find_free_block wrapState = toInt32 1048576 :=
    pmm_find_free_block_eq wrapState (by decide) 1048576 (by decide) (by decide)
      (fun k hk => wrapState_low k hk)
  have hg : wrapState.phys_used_block_count ≠ wrapState.phys_block_count := by decide
  have hret : (pmm_alloc_block 4096 wrapState).1 = 0 := by
    rw [pmm_alloc_block_ok 4096 wrapState wrapState_WF hg 1048576 (by decide) hfind]
    show 1048576 * 4096 % 2 ^ 32 = 0
    decide
  rw [hv] at hfind
  refine ⟨wrapState_WF, hg, by decide, by decide, fun k hk => wrapState_low k hk, hfind,
    hret, ?_⟩
  rw [hret]
  decide

/-- C6 at a failing input: `2^31 + 32` blocks of which the first `2^31` are in use.  The
lowest run of one clear bit starts at bit `2^31`, inside the scanned words, and
`pmm_find_free_blocks(1)` returns `-2^31`: the start `32 * starting_block +
starting_block_bit` does not fit the `int` it is computed in.  The result is not `-1`
and is not the index of a block. -/
theorem C6_run_start_negative :
    bigState.WF ∧
    2147483648 + 1 ≤ 32 * (bigState.phys_block_count / 32) ∧
    bitmap_test bigState.phys_memory_bitmap 2147483648 = false ∧
    (∀ k : Nat, k < 2147483648 → bitmap_test bigState.phys_memory_bitmap (k : Int) = true) ∧
    pmm_find_free_blocks bigState 1 = -2147483648 ∧
    pmm_find_free_blocks bigState 1 ≠ -1 ∧
    ¬ (0 ≤ pmm_find_free_blocks bigState 1) := by
  have hrun : clearRun bigState.phys_memory_bitmap 2147483648 1 :=
    fun k h1 _ => bigState_high k h1
  have hfind : pmm_find_free_blocks bigState 1 = -2147483648 := by
    rcases pmm_find_free_blocks_cases bigState (by decide) 1 with ⟨_, hno⟩ | ⟨_, s0, e1, e2, _, e4⟩
    · exact absurd hrun (hno (by decide) 2147483648 (by decide))
    · have hle : s0 ≤ 2147483648 := by
        by_contra hgt
        exact e4 2147483648 (by omega) hrun
      have hge : 2147483648 ≤ s0 := by
        by_contra hlt
        have h0 := e2 s0 (Nat.le_refl _) (by omega)
        rw [bigState_low s0 (by omega)] at h0
        exact absurd h0 (by simp)
      have hs0 : s0 = 2147483648 := by omega
      rw [e1, hs0]
      decide
  rw [hfind]
  exact ⟨bigState_WF, by decide, bigState_high 2147483648 (Nat.le_refl _),
    fun k hk => bigState_low k hk, rfl, by decide, by decide⟩

/-- C7 at a failing input: 31 blocks, all free, the used counter at 0, so that block 0
is the lowest free block and the guard does not fire.  Both allocation functions scan
`31 / 32 = 0` words and return `0xFFFFFFFF` instead of address 0. -/
theorem C7_block_zero_not_returned :
    (mkState [0] 31 0).phys_used_block_count =
      popcount (mkState [0] 31 0).phys_memory_bitmap (mkState [0] 31 0).phys_block_count ∧
    (mkState [0] 31 0).phys_used_block_count ≠ (mkState [0] 31 0).phys_block_count ∧
    0 < (mkState [0] 31 0).phys_block_count ∧
    bitmap_test (mkState [0] 31 0).phys_memory_bitmap 0 = false ∧
    (pmm_alloc_block 4096 (mkState [0] 31 0)).1 = 0xFFFFFFFF ∧
    (pmm_alloc_blocks 4096 (mkState [0] 31 0) 1).1 = 0xFFFFFFFF ∧
    (pmm_alloc_block 4096 (mkState [0] 31 0)).1 ≠ 0 ∧
    (pmm_alloc_blocks 4096 (mkState [0] 31 0) 1).1 ≠ 0 := by
  refine ⟨by decide, by decide, by decide, by decide, by decide, by decide, by decide,
    by decide⟩

/-- C8: when `phys_used_block_count == phys_block_count`, whatever the bitmap `bm`
contains, `pmm_alloc_block()` and `pmm_alloc_blocks(count)` for every `count` return
`0xFFFFFFFF` and leave the whole state, bitmap and counters included, as it was. -/
theorem C8_exhaustion (bs : Nat) (s : PmmState)
    (h : s.phys_used_block_count = s.phys_block_count) (bm : Nat → Nat) (count : Nat) :
    pmm_alloc_block bs { s with phys_memory_bitmap := bm } =
      (0xFFFFFFFF, { s with phys_memory_bitmap := bm }) ∧
    pmm_alloc_blocks bs { s with phys_memory_bitmap := bm } count =
      (0xFFFFFFFF, { s with phys_memory_bitmap := bm }) :=
  ⟨pmm_alloc_block_fail_guard bs _ h, pmm_alloc_blocks_fail_guard bs _ count h⟩

theorem C8_exhaustion_witness :
    pmm_alloc_block 4096 { mkState [0] 32 32 with phys_memory_bitmap := fun _ => 0 } =
      (0xFFFFFFFF, { mkState [0] 32 32 with phys_memory_bitmap := fun _ => 0 }) ∧
    pmm_alloc_blocks 4096 { mkState [0] 32 32 with phys_memory_bitmap := fun _ => 0 } 3 =
      (0xFFFFFFFF, { mkState [0] 32 32 with phys_memory_bitmap := fun _ => 0 }) :=
  C8_exhaustion 4096 (mkState [0] 32 32) rfl (fun _ => 0) 3

/-- C9 at a failing input: 40 blocks, blocks 0..31 in use, block 35 free, the used
counter equal to the number of set bits (39); `pmm_alloc_block()` returns `0xFFFFFFFF`
although block 35 is free, because only `40 / 32 = 1` word is scanned. -/
theorem C9_tail_block_missed :
    (mkState [0xFFFFFFFF, 0xF7] 40 39).phys_used_block_count =
      popcount (mkState [0xFFFFFFFF, 0xF7] 40 39).phys_memory_bitmap
        (mkState [0xFFFFFFFF, 0xF7] 40 39).phys_block_count ∧
    35 < (mkState [0xFFFFFFFF, 0xF7] 40 39).phys_block_count ∧
    bitmap_test (mkState [0xFFFFFFFF, 0xF7] 40 39).phys_memory_bitmap 35 = false ∧
    (pmm_alloc_block 4096 (mkState [0xFFFFFFFF, 0xF7] 40 39)).1 = 0xFFFFFFFF := by
  refine ⟨by decide, by decide, by decide, by decide⟩

/-- C10 at a failing input: 32 blocks, all free in the bitmap, the used counter at 33.
The unsigned difference `32 - 33` is `0xFFFFFFFF`, the guard `<= 0` does not fire, and
both allocation functions return address 0 and advance the counter. -/
theorem C10_guard_misses_overcount :
    (mkState [0] 32 33).phys_used_block_count ≥ (mkState [0] 32 33).phys_block_count ∧
    (pmm_alloc_block 4096 (mkState [0] 32 33)).1 = 0 ∧
    (pmm_alloc_block 4096 (mkState [0] 32 33)).2.phys_used_block_count = 34 ∧
    (pmm_alloc_blocks 4096 (mkState [0] 32 33) 2).1 = 0 ∧
    (pmm_alloc_blocks 4096 (mkState [0] 32 33) 2).2.phys_used_block_count = 35 := by
  refine ⟨by decide, by decide, by decide, by decide, by decide⟩

/-- C11: for every bitmap and every 32-bit `phys_block_count`,
`pmm_find_free_blocks(0)` returns `-1`, so `pmm_alloc_blocks(0)` returns `0xFFFFFFFF`
and leaves the state, bitmap and `phys_used_block_count` included, as it was. -/
theorem C11_zero_request (bs : Nat) (s : PmmState) (hc : s.phys_block_count < 2 ^ 32) :
    pmm_find_free_blocks s 0 = -1 ∧ pmm_alloc_blocks bs s 0 = (0xFFFFFFFF, s) := by
  have hf : pmm_find_free_blocks s 0 = -1 :=
    find_free_blocks_words_zero s.phys_memory_bitmap (s.phys_block_count / 32) 0 _
      (by omega) (Nat.zero_le _)
  exact ⟨hf, pmm_alloc_blocks_fail_find bs s 0 hf⟩

theorem C11_zero_request_witness :
    pmm_find_free_blocks (mkState [0] 32 0) 0 = -1 ∧
    pmm_alloc_blocks 4096 (mkState [0] 32 0) 0 = (0xFFFFFFFF, mkState [0] 32 0) :=
  C11_zero_request 4096 (mkState [0] 32 0) (by decide)

/-- C19: for a well-typed state with `phys_block_count * PHYS_BLOCK_SIZE ≤ 2^32` and
`N ≥ 1`, if `pmm_alloc_blocks(N)` returns an address `a` other than `0xFFFFFFFF`, then
`pmm_free_blocks(a, N)` right after it restores the whole bitmap and
`phys_used_block_count` to their values before the allocation. -/
theorem C19_alloc_free_blocks_round_trip (bs : Nat) (s : PmmState) (hwf : s.WF)
    (hbs : 0 < bs) (hb : s.phys_block_count * bs ≤ 2 ^ 32) (n : Nat) (hn : 1 ≤ n) (a : Nat)
    (s' : PmmState) (h : pmm_alloc_blocks bs s n = (a, s')) (ha : a ≠ 0xFFFFFFFF) :
    (pmm_free_blocks bs s' a n).phys_memory_bitmap = s.phys_memory_bitmap ∧
    (pmm_free_blocks bs s' a n).phys_used_block_count = s.phys_used_block_count := by
  obtain ⟨r, _, _, _, e2, e3, _, hra, hs'⟩ := pmm_alloc_blocks_success bs s hwf n a s' h ha
  have hc := hwf.2.1
  have hu := hwf.2.2
  have hrlt : r < s.phys_block_count := by omega
  have hmul : r * bs < 2 ^ 32 := index_mul_lt bs _ r hbs hb hrlt
  have hdiv : a / bs = r := by
    rw [hra, Nat.mod_eq_of_lt hmul, Nat.mul_div_cancel r hbs]
  subst hs'
  refine ⟨?_, ?_⟩
  · show free_blocks_loop (toInt32 (a / bs)) 0 n
        (alloc_blocks_loop (toInt32 r) 0 n s.phys_memory_bitmap) = s.phys_memory_bitmap
    rw [hdiv]
    apply bitmap_ext _ _ (free_blocks_loop_lt _ n 0 _ (alloc_blocks_loop_lt _ n 0 _ hwf.1))
      hwf.1
    intro k
    rw [free_blocks_loop_test r n 0 _ k (by omega), alloc_blocks_loop_test r n 0 _ k (by omega)]
    by_cases hk : r + 0 ≤ k ∧ k < r + 0 + n ∧ k < 2 ^ 31
    · rw [decide_eq_true hk, e2 k (by omega) (by omega)]
      rfl
    · rw [decide_eq_false hk]
      rfl
  · show ((s.phys_used_block_count + n) % 2 ^ 32 + 2 ^ 32 - n) % 2 ^ 32 =
      s.phys_used_block_count
    omega

theorem C19_alloc_free_blocks_round_trip_witness :
    (pmm_free_blocks 4096 (pmm_alloc_blocks 4096 (mkState [0xFFFFE3DF] 32 28) 3).2
      (10 * 4096) 3).phys_memory_bitmap = (mkState [0xFFFFE3DF] 32 28).phys_memory_bitmap ∧
    (pmm_free_blocks 4096 (pmm_alloc_blocks 4096 (mkState [0xFFFFE3DF] 32 28) 3).2
      (10 * 4096) 3).phys_used_block_count = 28 :=
  C19_alloc_free_blocks_round_trip 4096 (mkState [0xFFFFE3DF] 32 28)
    (mkState_WF _ _ _ (by decide) (by decide) (by decide)) (by decide) (by decide)
    3 (by decide) (10 * 4096) _ rfl (by decide)

/-- C20 at a failing input: 4096-byte blocks, `2^20 + 32` blocks, the first `2^20` in
use.  `pmm_alloc_block()` sets bit `2^20` and returns address 0, so the address divided
by the block size is 0, not `2^20`, and `pmm_free_block` of that address clears bit 0
and leaves bit `2^20` set. -/
theorem C20_address_wraps :
    wrapState.WF ∧
    (pmm_alloc_block 4096 wrapState).1 ≠ 0xFFFFFFFF ∧
    bitmap_test wrapState.phys_memory_bitmap 1048576 = false ∧
    bitmap_test (pmm_alloc_block 4096 wrapState).2.phys_memory_bitmap 1048576 = true ∧
    (pmm_alloc_block 4096 wrapState).1 / 4096 = 0 ∧
    bitmap_test wrapState.phys_memory_bitmap 0 = true ∧
    bitmap_test (pmm_free_block 4096 (pmm_alloc_block 4096 wrapState).2
      (pmm_alloc_block 4096 wrapState).1).phys_memory_bitmap 0 = false ∧
    bitmap_test (pmm_free_block 4096 (pmm_alloc_block 4096 wrapState).2
      (pmm_alloc_block 4096 wrapState).1).phys_memory_bitmap 1048576 = true := by
  have hv : toInt32 1048576 = ((1048576 : Nat) : Int) := by decide
  have hfind : pmm_find_free_block wrapState = toInt32 1048576 :=
    pmm_find_free_block_eq wrapState (by decide) 1048576 (by decide) (by decide)
      (fun k hk => wrapState_low k hk)
  have hg : wrapState.phys_used_block_count ≠ wrapState.phys_block_count := by decide
  have halloc := pmm_alloc_block_ok 4096 wrapState wrapState_WF hg 1048576 (by decide) hfind
  have h0 : (1048576 * 4096) % 2 ^ 32 = 0 := by decide
  have hz : toInt32 (0 / 4096) = ((0 : Nat) : Int) := by decide
  rw [halloc, h0, hv]
  refine ⟨wrapState_WF, by decide, by decide, ?_, by decide, wrapState_low 0 (by decide),
    ?_, ?_⟩
  · show bitmap_test (bitmap_set wrapState.phys_memory_bitmap ((1048576 : Nat) : Int))
      ((1048576 : Nat) : Int) = true
    rw [bitmap_test_set]
    simp
  · show bitmap_test (bitmap_unset (bitmap_set wrapState.phys_memory_bitmap
      ((1048576 : Nat) : Int)) (toInt32 (0 / 4096))) ((0 : Nat) : Int) = false
    rw [hz, bitmap_test_unset]
    simp
  · show bitmap_test (bitmap_unset (bitmap_set wrapState.phys_memory_bitmap
      ((1048576 : Nat) : Int)) (toInt32 (0 / 4096))) ((1048576 : Nat) : Int) = true
    rw [hz, bitmap_test_unset, bitmap_test_set]
    simp

/-- C15 at a failing input: 4096-byte blocks, 32 blocks of which blocks 22..31 are in
use, the used counter at 10.  `pmm_alloc_chunk(0, 8192)` is asked for
`8192 / 4096 = 2` blocks; it sets the bits of blocks 0, 1 and 2 and lowers the counter
to 7. -/
theorem C15_chunk_miscount :
    (mkState [0xFFC00000] 32 10).phys_used_block_count =
      popcount (mkState [0xFFC00000] 32 10).phys_memory_bitmap 32 ∧
    bitmap_test (mkState [0xFFC00000] 32 10).phys_memory_bitmap 2 = false ∧
    bitmap_test (pmm_alloc_chunk 4096 (mkState [0xFFC00000] 32 10) 0 8192).phys_memory_bitmap 2
      = true ∧
    (pmm_alloc_chunk 4096 (mkState [0xFFC00000] 32 10) 0 8192).phys_memory_bitmap 0 =
      0xFFC00007 ∧
    (pmm_alloc_chunk 4096 (mkState [0xFFC00000] 32 10) 0 8192).phys_used_block_count = 7 ∧
    (pmm_alloc_chunk 4096 (mkState [0xFFC00000] 32 10) 0 8192).phys_used_block_count ≠
      10 + 8192 / 4096 := by
  refine ⟨by decide, by decide, by decide, by decide, by decide, by decide⟩

/-! ## `pmm_parse_memory_map` -/

theorem sumUsable_le (mentry : Nat → multiboot_memory_map_entry) :
    ∀ n i, sumUsable mentry i n ≤ sumLen mentry i n := by
  intro n
  induction n with
  | zero => intro i; exact Nat.le_refl _
  | succ n ih =>
    intro i
    unfold sumUsable sumLen
    have := ih (i + 1)
    split <;> omega

theorem parse_memory_map_loop_spec (mentry : Nat → multiboot_memory_map_entry) :
    ∀ n i s, s.phys_installed_memory_size < 2 ^ 64 → s.phys_available_memory_size < 2 ^ 64 →
      (parse_memory_map_loop mentry n i s).phys_installed_memory_size =
        (s.phys_installed_memory_size + sumLen mentry i n) % 2 ^ 64 ∧
      (parse_memory_map_loop mentry n i s).phys_available_memory_size =
        (s.phys_available_memory_size + sumUsable mentry i n) % 2 ^ 64 ∧
      (parse_memory_map_loop mentry n i s).phys_memory_bitmap = s.phys_memory_bitmap ∧
      (parse_memory_map_loop mentry n i s).phys_block_count = s.phys_block_count ∧
      (parse_memory_map_loop mentry n i s).phys_used_block_count = s.phys_used_block_count ∧
      (parse_memory_map_loop mentry n i s).kernel_phys_map_start = s.kernel_phys_map_start ∧
      (parse_memory_map_loop mentry n i s).kernel_phys_map_end = s.kernel_phys_map_end := by
  intro n
  induction n with
  | zero =>
    intro i s hi ha
    refine ⟨?_, ?_, rfl, rfl, rfl, rfl, rfl⟩
    · show s.phys_installed_memory_size = (s.phys_installed_memory_size + 0) % 2 ^ 64
      omega
    · show s.phys_available_memory_size = (s.phys_available_memory_size + 0) % 2 ^ 64
      omega
  | succ n ih =>
    intro i s hi ha
    by_cases ht : (mentry i).type = 1
    · have key : parse_memory_map_loop mentry (n + 1) i s =
          parse_memory_map_loop mentry n (i + 1)
            { s with
              phys_available_memory_size :=
                (s.phys_available_memory_size + (mentry i).len) % 2 ^ 64
              phys_installed_memory_size :=
                (s.phys_installed_memory_size + (mentry i).len) % 2 ^ 64 } := by
        simp only [parse_memory_map_loop, ht, if_true]
      rw [key]
      obtain ⟨h1, h2, h3, h4, h5, h6, h7⟩ := ih (i + 1)
        { s with
          phys_available_memory_size :=
            (s.phys_available_memory_size + (mentry i).len) % 2 ^ 64
          phys_installed_memory_size :=
            (s.phys_installed_memory_size + (mentry i).len) % 2 ^ 64 }
        (Nat.mod_lt _ (by decide)) (Nat.mod_lt _ (by decide))
      have e1 : sumLen mentry i (n + 1) = (mentry i).len + sumLen mentry (i + 1) n := rfl
      have e2 : sumUsable mentry i (n + 1) = (mentry i).len + sumUsable mentry (i + 1) n := by
        show (if (mentry i).type = 1 then (mentry i).len else 0) + _ = _
        rw [if_pos ht]
      refine ⟨?_, ?_, h3, h4, h5, h6, h7⟩
      · rw [h1, e1]
        show ((s.phys_installed_memory_size + (mentry i).len) % 2 ^ 64 +
          sumLen mentry (i + 1) n) % 2 ^ 64 = _
        omega
      · rw [h2, e2]
        show ((s.phys_available_memory_size + (mentry i).len) % 2 ^ 64 +
          sumUsable mentry (i + 1) n) % 2 ^ 64 = _
        omega
    · have key : parse_memory_map_loop mentry (n + 1) i s =
          parse_memory_map_loop mentry n (i + 1)
            { s with
              phys_installed_memory_size :=
                (s.phys_installed_memory_size + (mentry i).len) % 2 ^ 64 } := by
        simp only [parse_memory_map_loop, ht, if_false]
      rw [key]
      obtain ⟨h1, h2, h3, h4, h5, h6, h7⟩ := ih (i + 1)
        { s with
          phys_installed_memory_size :=
            (s.phys_installed_memory_size + (mentry i).len) % 2 ^ 64 }
        (Nat.mod_lt _ (by decide)) ha
      have e1 : sumLen mentry i (n + 1) = (mentry i).len + sumLen mentry (i + 1) n := rfl
      have e2 : sumUsable mentry i (n + 1) = sumUsable mentry (i + 1) n := by
        show (if (mentry i).type = 1 then (mentry i).len else 0) + _ = _
        rw [if_neg ht, Nat.zero_add]
      refine ⟨?_, ?_, h3, h4, h5, h6, h7⟩
      · rw [h1, e1]
        show ((s.phys_installed_memory_size + (mentry i).len) % 2 ^ 64 +
          sumLen mentry (i + 1) n) % 2 ^ 64 = _
        omega
      · rw [h2, e2]

/-- C16: for every sequence of map entries `mentry` and every 32-bit byte length `length`
(with `sizeof(entry) ≥ 2`), `pmm_parse_memory_map` adds to
`phys_installed_memory_size` the sum of the lengths of the first
`n = length / sizeof(entry)` entries and to `phys_available_memory_size` the sum of the
lengths of those of them with type tag 1, both in 64-bit arithmetic, and changes
neither the bitmap nor the block counters; from zero totals and without 64-bit
overflow the available total is at most the installed total. -/
theorem C16_parse_memory_map (esz : Nat) (s : PmmState)
    (mentry : Nat → multiboot_memory_map_entry) (length : Nat)
    (hesz : 2 ≤ esz) (hlen : length < 2 ^ 32)
    (hi : s.phys_installed_memory_size < 2 ^ 64)
    (ha : s.phys_available_memory_size < 2 ^ 64) :
    (pmm_parse_memory_map esz s mentry length).phys_installed_memory_size =
      (s.phys_installed_memory_size + sumLen mentry 0 (length / esz)) % 2 ^ 64 ∧
    (pmm_parse_memory_map esz s mentry length).phys_available_memory_size =
      (s.phys_available_memory_size + sumUsable mentry 0 (length / esz)) % 2 ^ 64 ∧
    (pmm_parse_memory_map esz s mentry length).phys_memory_bitmap = s.phys_memory_bitmap ∧
    (pmm_parse_memory_map esz s mentry length).phys_block_count = s.phys_block_count ∧
    (pmm_parse_memory_map esz s mentry length).phys_used_block_count =
      s.phys_used_block_count ∧
    (s.phys_installed_memory_size = 0 → s.phys_available_memory_size = 0 →
      sumLen mentry 0 (length / esz) < 2 ^ 64 →
      (pmm_parse_memory_map esz s mentry length).phys_available_memory_size ≤
        (pmm_parse_memory_map esz s mentry length).phys_installed_memory_size) := by
  have hn : length / esz < 2 ^ 31 := by
    have h1 : length / esz ≤ length / 2 := Nat.div_le_div_left hesz (by decide)
    omega
  have hrun : pmm_parse_memory_map esz s mentry length =
      parse_memory_map_loop mentry (length / esz) 0 s := by
    unfold pmm_parse_memory_map
    simp only [toInt32_of_lt _ hn, Int.toNat_ofNat]
  rw [hrun]
  obtain ⟨h1, h2, h3, h4, h5, _, _⟩ :=
    parse_memory_map_loop_spec mentry (length / esz) 0 s hi ha
  refine ⟨h1, h2, h3, h4, h5, ?_⟩
  intro z1 z2 hno
  rw [h1, h2, z1, z2]
  have hle := sumUsable_le mentry (length / esz) 0
  simp only [Nat.zero_add]
  rw [Nat.mod_eq_of_lt hno, Nat.mod_eq_of_lt (by omega)]
  exact hle

theorem C16_parse_memory_map_witness :
    (pmm_parse_memory_map 24 bootState
      (fun i => [({ size := 20, addr := 0, len := 0xF00000, type := 1 } :
          multiboot_memory_map_entry),
        { size := 20, addr := 0xF00000, len := 0x100000, type := 2 }].getD i
        { size := 0, addr := 0, len := 0, type := 0 }) 48).phys_installed_memory_size =
      (0 + sumLen (fun i => [({ size := 20, addr := 0, len := 0xF00000, type := 1 } :
          multiboot_memory_map_entry),
        { size := 20, addr := 0xF00000, len := 0x100000, type := 2 }].getD i
        { size := 0, addr := 0, len := 0, type := 0 }) 0 (48 / 24)) % 2 ^ 64 :=
  (C16_parse_memory_map 24 bootState _ 48 (by decide) (by decide) (by decide) (by decide)).1

/-! ## `pmm_alloc_chunk` and `pmm_free_chunk` -/

theorem alloc_chunk_loop_bitmap (cur : Nat) :
    ∀ n i s, (alloc_chunk_loop n (toInt32 (cur + i)) s).phys_memory_bitmap =
      alloc_blocks_loop (toInt32 cur) i n s.phys_memory_bitmap := by
  intro n
  induction n with
  | zero => intro i s; rfl
  | succ n ih =>
    intro i s
    unfold alloc_chunk_loop alloc_blocks_loop
    rw [wrapInt32_toInt32_succ, wrapInt32_toInt32_add, Nat.add_assoc, ih (i + 1)]

theorem free_chunk_loop_bitmap (cur : Nat) :
    ∀ n i s, (free_chunk_loop n (toInt32 (cur + i)) s).phys_memory_bitmap =
      free_blocks_loop (toInt32 cur) i n s.phys_memory_bitmap := by
  intro n
  induction n with
  | zero => intro i s; rfl
  | succ n ih =>
    intro i s
    unfold free_chunk_loop free_blocks_loop
    rw [wrapInt32_toInt32_succ, wrapInt32_toInt32_add, Nat.add_assoc, ih (i + 1)]

theorem alloc_chunk_loop_fields :
    ∀ n (cur : Int) s, s.phys_used_block_count < 2 ^ 32 →
      (alloc_chunk_loop n cur s).phys_used_block_count =
        (s.phys_used_block_count + n * (2 ^ 32 - 1)) % 2 ^ 32 ∧
      (alloc_chunk_loop n cur s).phys_block_count = s.phys_block_count ∧
      (alloc_chunk_loop n cur s).phys_memory_bitmap_addr = s.phys_memory_bitmap_addr := by
  intro n
  induction n with
  | zero =>
    intro cur s hu
    refine ⟨?_, rfl, rfl⟩
    show s.phys_used_block_count = _
    omega
  | succ n ih =>
    intro cur s hu
    unfold alloc_chunk_loop
    obtain ⟨h1, h2, h3⟩ := ih (wrapInt32 (cur + 1))
      { s with
        phys_memory_bitmap := bitmap_set s.phys_memory_bitmap cur
        phys_used_block_count := (s.phys_used_block_count + 2 ^ 32 - 1) % 2 ^ 32 }
      (Nat.mod_lt _ (by decide))
    refine ⟨?_, h2, h3⟩
    rw [h1]
    show ((s.phys_used_block_count + 2 ^ 32 - 1) % 2 ^ 32 + n * (2 ^ 32 - 1)) % 2 ^ 32 = _
    omega

theorem free_chunk_loop_fields :
    ∀ n (cur : Int) s, s.phys_used_block_count < 2 ^ 32 →
      (free_chunk_loop n cur s).phys_used_block_count =
        (s.phys_used_block_count + n * (2 ^ 32 - 1)) % 2 ^ 32 ∧
      (free_chunk_loop n cur s).phys_block_count = s.phys_block_count ∧
      (free_chunk_loop n cur s).phys_memory_bitmap_addr = s.phys_memory_bitmap_addr := by
  intro n
  induction n with
  | zero =>
    intro cur s hu
    refine ⟨?_, rfl, rfl⟩
    show s.phys_used_block_count = _
    omega
  | succ n ih =>
    intro cur s hu
    unfold free_chunk_loop
    obtain ⟨h1, h2, h3⟩ := ih (wrapInt32 (cur + 1))
      { s with
        phys_memory_bitmap := bitmap_unset s.phys_memory_bitmap cur
        phys_used_block_count := (s.phys_used_block_count + 2 ^ 32 - 1) % 2 ^ 32 }
      (Nat.mod_lt _ (by decide))
    refine ⟨?_, h2, h3⟩
    rw [h1]
    show ((s.phys_used_block_count + 2 ^ 32 - 1) % 2 ^ 32 + n * (2 ^ 32 - 1)) % 2 ^ 32 = _
    omega

/-- What `pmm_alloc_chunk` does for a block count that fits `int`: the loop runs once
more than `length / bs`, from block `base_addr / bs`. -/
theorem pmm_alloc_chunk_eq (bs : Nat) (s : PmmState) (base_addr length : Nat)
    (hlen : length / bs < 2 ^ 31) :
    pmm_alloc_chunk bs s base_addr length =
      alloc_chunk_loop (length / bs + 1) (toInt32 (base_addr / bs)) s := by
  unfold pmm_alloc_chunk
  simp only [toInt32_of_lt _ hlen, Int.toNat_ofNat]
  rw [if_pos (Int.ofNat_nonneg _)]

theorem pmm_alloc_chunk_bitmap (bs : Nat) (s : PmmState) (base_addr length : Nat)
    (hlen : length / bs < 2 ^ 31) :
    (pmm_alloc_chunk bs s base_addr length).phys_memory_bitmap =
      alloc_blocks_loop (toInt32 (base_addr / bs)) 0 (length / bs + 1)
        s.phys_memory_bitmap := by
  rw [pmm_alloc_chunk_eq bs s base_addr length hlen]
  exact alloc_chunk_loop_bitmap (base_addr / bs) (length / bs + 1) 0 s

theorem pmm_free_chunk_bitmap (bs : Nat) (s : PmmState) (base_addr length : Nat) :
    (pmm_free_chunk bs s base_addr length).phys_memory_bitmap =
      free_blocks_loop (toInt32 (base_addr / bs)) 0 ((length / bs) % 2 ^ 32)
        s.phys_memory_bitmap := by
  unfold pmm_free_chunk
  exact free_chunk_loop_bitmap (base_addr / bs) _ 0 s

/-! ## `pmm_free_available_memory` -/

theorem drop_of_get (es : List multiboot_memory_map_entry) (k : Nat)
    (e : multiboot_memory_map_entry) (hk : k < es.length) (h : es.get? k = some e) :
    es.drop k = e :: es.drop (k + 1) := by
  rw [List.drop_eq_getElem_cons hk]
  congr 1
  rw [List.get?_eq_getElem?, List.getElem?_eq_getElem hk] at h
  exact Option.some.inj h

/-- On a map laid out as `MapLayout` says, the pointer walk of
`pmm_free_available_memory` visits the records of the list in order and stops after the
last one, given at least as many loop iterations as there are records left. -/
theorem free_available_walk_eq (c : BootConfig) (mem : Nat → multiboot_memory_map_entry)
    (mb : multiboot_info) (es : List multiboot_memory_map_entry)
    (hl : MapLayout c mem mb es) (bs : Nat) :
    ∀ fuel k s, k ≤ es.length → es.length - k ≤ fuel →
      free_available_walk bs c.size_field_size mem
        ((mb.mmap_addr + mb.mmap_length) % 2 ^ 32) fuel
        (mb.mmap_addr + k * c.entry_size) s =
      some ((es.drop k).foldl (free_step bs) s) := by
  obtain ⟨hesz, hlen, hlt, hrec⟩ := hl
  have hlim : (mb.mmap_addr + mb.mmap_length) % 2 ^ 32 =
      mb.mmap_addr + es.length * c.entry_size := by
    rw [Nat.mod_eq_of_lt hlt, hlen]
  rw [hlim]
  have hend : ∀ s, es.length ≤ es.length →
      (es.drop es.length).foldl (free_step bs) s = s := by
    intro s _
    rw [List.drop_length]
    rfl
  intro fuel
  induction fuel with
  | zero =>
    intro k s hk hf
    have hkl : k = es.length := by omega
    subst hkl
    unfold free_available_walk
    rw [if_neg (Nat.lt_irrefl _), hend s (Nat.le_refl _)]
  | succ fuel ih =>
    intro k s hk hf
    unfold free_available_walk
    by_cases hkl : k = es.length
    · subst hkl
      rw [if_neg (Nat.lt_irrefl _), hend s (Nat.le_refl _)]
    · have hklt : k < es.length := by omega
      have hmul : k * c.entry_size < es.length * c.entry_size :=
        Nat.mul_lt_mul_of_pos_right hklt hesz
      have hmul' : (k + 1) * c.entry_size ≤ es.length * c.entry_size :=
        Nat.mul_le_mul_right _ hklt
      have hsucc : (k + 1) * c.entry_size = k * c.entry_size + c.entry_size :=
        Nat.succ_mul _ _
      rw [if_pos (by omega)]
      obtain ⟨hget, hsize⟩ := hrec k hklt
      have hnext : (mb.mmap_addr + k * c.entry_size +
          (mem (mb.mmap_addr + k * c.entry_size)).size + c.size_field_size) % 2 ^ 32 =
          mb.mmap_addr + (k + 1) * c.entry_size := by
        rw [Nat.mod_eq_of_lt (by omega)]
        omega
      simp only [hnext]
      rw [drop_of_get es k _ hklt hget, List.foldl_cons]
      exact ih (k + 1) _ (by omega) (by omega)

/-- The model of `pmm_free_available_memory` on a laid-out map: every record is passed
to the loop body once, in order, and then bit 0 is set. -/
theorem pmm_free_available_memory_eq (c : BootConfig)
    (mem : Nat → multiboot_memory_map_entry) (mb : multiboot_info)
    (es : List multiboot_memory_map_entry) (hl : MapLayout c mem mb es) (bs fuel : Nat)
    (hf : es.length ≤ fuel) (s : PmmState) :
    pmm_free_available_memory bs c.size_field_size mem mb fuel s =
      some { es.foldl (free_step bs) s with
        phys_memory_bitmap := bitmap_set (es.foldl (free_step bs) s).phys_memory_bitmap 0 } := by
  unfold pmm_free_available_memory
  have h := free_available_walk_eq c mem mb es hl bs fuel 0 s (Nat.zero_le _) (by omega)
  rw [Nat.zero_mul, Nat.add_zero, List.drop_zero] at h
  rw [h]

/-- One usable record through `pmm_free_chunk`, when its blocks are inside a bitmap of at
most `2^31` bits and all set: exactly these bits are cleared and the used counter, being the population
count, goes down by their number. -/
theorem pmm_free_chunk_spec (bs : Nat) (s : PmmState) (e : multiboot_memory_map_entry)
    (hc : s.phys_block_count ≤ 2 ^ 31) (hu : s.phys_used_block_count < 2 ^ 32)
    (hin : e.addr / bs + e.len / bs ≤ s.phys_block_count)
    (hset : ∀ k : Nat, e.addr / bs ≤ k → k < e.addr / bs + e.len / bs →
      bitmap_test s.phys_memory_bitmap k = true)
    (hinv : s.phys_used_block_count = popcount s.phys_memory_bitmap s.phys_block_count) :
    (pmm_free_chunk bs s e.addr e.len).phys_block_count = s.phys_block_count ∧
    (pmm_free_chunk bs s e.addr e.len).phys_used_block_count =
      popcount (pmm_free_chunk bs s e.addr e.len).phys_memory_bitmap s.phys_block_count ∧
    (pmm_free_chunk bs s e.addr e.len).phys_used_block_count + e.len / bs =
      s.phys_used_block_count ∧
    (∀ k : Nat, bitmap_test (pmm_free_chunk bs s e.addr e.len).phys_memory_bitmap k = true ↔
      (bitmap_test s.phys_memory_bitmap k = true ∧
        ¬ (e.addr / bs ≤ k ∧ k < e.addr / bs + e.len / bs))) := by
  have hL : e.len / bs % 2 ^ 32 = e.len / bs := by
    apply Nat.mod_eq_of_lt
    have : e.len / bs ≤ e.addr / bs + e.len / bs := Nat.le_add_left _ _
    omega
  have hbm : (pmm_free_chunk bs s e.addr e.len).phys_memory_bitmap =
      free_blocks_loop (toInt32 (e.addr / bs)) 0 (e.len / bs) s.phys_memory_bitmap := by
    rw [pmm_free_chunk_bitmap, hL]
  obtain ⟨hused, hcount, _⟩ :=
    free_chunk_loop_fields ((e.len / bs) % 2 ^ 32) (toInt32 (e.addr / bs)) s hu
  rw [hL] at hused
  have hused' : (pmm_free_chunk bs s e.addr e.len).phys_used_block_count =
      (s.phys_used_block_count + e.len / bs * (2 ^ 32 - 1)) % 2 ^ 32 := by
    unfold pmm_free_chunk
    rw [hL]
    exact hused
  have hcount' : (pmm_free_chunk bs s e.addr e.len).phys_block_count = s.phys_block_count := by
    unfold pmm_free_chunk
    exact hcount
  have htest_in : ∀ k : Nat, e.addr / bs ≤ k → k < e.addr / bs + e.len / bs →
      bitmap_test (pmm_free_chunk bs s e.addr e.len).phys_memory_bitmap k = false := by
    intro k h1 h2
    rw [hbm]
    exact free_blocks_loop_in _ _ _ k (by omega) h1 h2
  have htest_out : ∀ k : Nat, ¬ (e.addr / bs ≤ k ∧ k < e.addr / bs + e.len / bs) →
      bitmap_test (pmm_free_chunk bs s e.addr e.len).phys_memory_bitmap k =
        bitmap_test s.phys_memory_bitmap k := by
    intro k h
    rw [hbm]
    exact free_blocks_loop_out _ _ _ k (by omega) h
  have hpc := popcount_run (pmm_free_chunk bs s e.addr e.len).phys_memory_bitmap
    s.phys_memory_bitmap (e.addr / bs) (e.len / bs)
    (fun k h1 h2 => ⟨hset k h1 h2, htest_in k h1 h2⟩)
    (fun k h => (htest_out k h).symm) s.phys_block_count
  have hle := popcount_le (pmm_free_chunk bs s e.addr e.len).phys_memory_bitmap
    s.phys_block_count
  refine ⟨hcount', ?_, ?_, ?_⟩
  · rw [hused', hinv, hpc]
    omega
  · rw [hused', hinv, hpc]
    omega
  · intro k
    by_cases hk : e.addr / bs ≤ k ∧ k < e.addr / bs + e.len / bs
    · rw [htest_in k hk.1 hk.2]
      constructor
      · intro h; exact absurd h (by simp)
      · rintro ⟨_, h⟩; exact absurd hk h
    · rw [htest_out k hk]
      exact ⟨fun h => ⟨h, hk⟩, fun h => h.1⟩

/-! ## `pmm_init` -/

theorem pmm_init_eq (c : BootConfig) (mem : Nat → multiboot_memory_map_entry)
    (ram : Nat → Nat) (mb : multiboot_info) (fuel : Nat) (s : PmmState) :
    pmm_init c mem ram mb fuel s =
      match pmm_free_available_memory c.PHYS_BLOCK_SIZE c.size_field_size mem mb fuel
          (init_phase2 c mem ram mb s) with
      | none => none
      | some s3 => some (pmm_test c.PHYS_BLOCK_SIZE (init_phase4 c s3)) := rfl

/-- A list of records of the usual layout, placed by `memOf`, is a laid-out map. -/
theorem memOf_layout (c : BootConfig) (base : Nat) (es : List multiboot_memory_map_entry)
    (hesz : 0 < c.entry_size)
    (hsz : ∀ e ∈ es, e.size + c.size_field_size = c.entry_size)
    (hlt : base + es.length * c.entry_size < 2 ^ 32) :
    MapLayout c (memOf base c.entry_size es)
      { mmap_addr := base, mmap_length := es.length * c.entry_size } es := by
  refine ⟨hesz, rfl, hlt, ?_⟩
  intro i hi
  have hread : memOf base c.entry_size es (base + i * c.entry_size) = es[i] := by
    unfold memOf
    rw [Nat.add_sub_cancel_left, Nat.mul_div_cancel _ hesz, List.getD_eq_getElem _ _ hi]
  show es.get? i = some (memOf base c.entry_size es (base + i * c.entry_size)) ∧
    (memOf base c.entry_size es (base + i * c.entry_size)).size + c.size_field_size =
      c.entry_size
  rw [hread]
  refine ⟨?_, hsz _ (List.getElem_mem hi)⟩
  rw [List.get?_eq_getElem?, List.getElem?_eq_getElem hi]

theorem memset_ff_test (ram : Nat → Nat) (nbytes k : Nat) (h : 4 * (k / 32) + 4 ≤ nbytes) :
    bitmap_test (memset_ff ram nbytes) (k : Int) = true := by
  rw [bitmap_test_eq]
  unfold memset_ff
  rw [if_pos h]
  exact word_full_bits _ (Nat.mod_lt _ (by decide))

theorem memset_ff_lt (ram : Nat → Nat) (nbytes : Nat) (h : ∀ w, ram w < 2 ^ 32) (w : Nat) :
    memset_ff ram nbytes w < 2 ^ 32 := by
  unfold memset_ff
  split
  · decide
  · split
    · apply Nat.or_lt_two_pow (h w)
      have h1 : 8 * (nbytes - 4 * w) ≤ 24 := by omega
      have h2 : 2 ^ (8 * (nbytes - 4 * w)) ≤ 2 ^ 24 := Nat.pow_le_pow_right (by decide) h1
      have h3 : (2 : Nat) ^ 24 < 2 ^ 32 := by decide
      omega
    · exact h w

theorem farPhase2_bits (k : Nat) (hk : k < 2147483680) :
    bitmap_test farPhase2.phys_memory_bitmap (k : Int) = true := by
  have hbm : farPhase2.phys_memory_bitmap = memset_ff (fun _ => 0) 268435460 := by
    unfold farPhase2
    rfl
  rw [hbm]
  exact memset_ff_test _ _ k (by omega)

/-- C18 at a failing input: 4096-byte blocks and a map of `2^31 + 32` blocks whose only
usable range is block `2^31` at address `2^43`, block-aligned and inside
`[0, phys_block_count * 4096)`.  From the phase-2 state of `pmm_init` (every bit of
`[0, phys_block_count)` set, the used counter equal to the total), `pmm_free_chunk`
converts the block index to the `int` `-2^31`, `bitmap_unset(-2^31)` addresses
`phys_memory_bitmap[-2^26]`, and after `pmm_free_available_memory` block `2^31` is still
marked used although it lies in a usable range; the used counter has gone down by the
one usable block. -/
theorem C18_usable_block_stays_set :
    farPhase2.phys_block_count = 2147483680 ∧
    (∀ k : Nat, k < farPhase2.phys_block_count →
      bitmap_test farPhase2.phys_memory_bitmap (k : Int) = true) ∧
    farPhase2.phys_used_block_count = farPhase2.phys_block_count ∧
    UsableRanges 4096 farPhase2.phys_block_count farMap ∧
    2147483648 < farPhase2.phys_block_count ∧
    (mkEntry 0x80000000000 0x1000 1 ∈ farMap ∧
      inUsable 4096 (mkEntry 0x80000000000 0x1000 1) 2147483648) ∧
    farPhase2.phys_block_count - usableBlocks 4096 farMap = 2147483679 ∧
    (pmm_free_available_memory 4096 4 (memOf 0x9000 24 farMap) (mbAt 3) 3 farPhase2).map
      (fun s => (bitmap_test s.phys_memory_bitmap 2147483648, s.phys_used_block_count)) =
      some (true, 2147483679) := by
  have hc : farPhase2.phys_block_count = 2147483680 := by decide
  refine ⟨hc, fun k hk => farPhase2_bits k (by omega), by decide, ⟨by decide, by decide⟩,
    by decide,
    ⟨List.mem_cons_of_mem _ (List.mem_cons_self _ _), by decide, by decide, by decide⟩,
    by decide, by decide⟩

set_option maxRecDepth 100000 in
/-- C12 at a failing input: 4096-byte blocks, one usable range of 256 KiB (64 blocks),
the kernel at `[0x2000, 0x3FFC)` and the 8-byte bitmap right after it.  After
`pmm_init` the bitmap occupies `[0x3FFC, 0x4004)`, block 4 overlaps that range and is
free, and the next `pmm_alloc_block()` returns its address `0x4000`. -/
theorem C12_bitmap_block_left_free :
    (pmm_init (stdConfig 0x2000 0x3FFC 0x1FFC) (memOf 0x9000 24 [mkEntry 0 0x40000 1])
        (fun _ => 0) (mbAt 1) 1 bootState).map
      (fun s => (s.phys_block_count, s.kernel_phys_map_start, s.kernel_phys_map_end,
        bitmap_test s.phys_memory_bitmap 4, (pmm_alloc_block 4096 s).1)) =
      some (64, 0x3FFC, 0x4004, false, 0x4000) ∧
    4 * 4096 < 0x4004 ∧ 0x3FFC < (4 + 1) * 4096 := by
  refine ⟨by decide, by decide, by decide⟩

set_option maxRecDepth 100000 in
/-- C13 at a failing input: 4096-byte blocks, 64 KiB reserved and 448 KiB usable above
(128 blocks), the kernel at `[0x10000, 0x40FF8)` and the 16-byte bitmap right after it
at `0x40FF8`.  `pmm_alloc_chunk` marks the kernel's blocks 16..64, but the block of the
bitmap is not reserved (the defect of C12): `pmm_test` is given block 65 at `0x41000`,
which holds the bitmap words 2 and 3, and copies its string over them.  Word 2 becomes
`0x6C6C6548` and bit 64, the last block of the kernel, is clear after `pmm_init`. -/
theorem C13_kernel_block_freed :
    (pmm_free_available_memory 4096 4
        (memOf 0x9000 24 [mkEntry 0 0x10000 2, mkEntry 0x10000 0x70000 1]) (mbAt 2) 2
        (init_phase2 (stdConfig 0x10000 0x40FF8 0x30FF8)
          (memOf 0x9000 24 [mkEntry 0 0x10000 2, mkEntry 0x10000 0x70000 1])
          (fun _ => 0) (mbAt 2) bootState)).map
      (fun s3 => (bitmap_test (init_phase4 (stdConfig 0x10000 0x40FF8 0x30FF8)
          s3).phys_memory_bitmap 64,
        (pmm_alloc_block 4096 (init_phase4 (stdConfig 0x10000 0x40FF8 0x30FF8) s3)).1)) =
      some (true, 0x41000) ∧
    (pmm_init (stdConfig 0x10000 0x40FF8 0x30FF8)
        (memOf 0x9000 24 [mkEntry 0 0x10000 2, mkEntry 0x10000 0x70000 1])
        (fun _ => 0) (mbAt 2) 2 bootState).map
      (fun s => (s.phys_block_count, s.kernel_phys_map_start, s.kernel_phys_map_end,
        s.phys_memory_bitmap 2, bitmap_test s.phys_memory_bitmap 64)) =
      some (128, 0x40FF8, 0x41008, 0x6C6C6548, false) ∧
    0x10000 % 4096 = 0 ∧
    0x10000 + 0x30FF8 ≤ 128 * 4096 ∧
    blockOverlaps 4096 64 0x10000 (0x10000 + 0x30FF8) := by
  refine ⟨by decide, by decide, by decide, by decide, ⟨by decide, by decide⟩⟩

set_option maxRecDepth 100000 in
/-- C17 at a failing input: 4096-byte blocks and two usable ranges of 64 KiB at 0 and at
`0x20000`.  The lengths add up to 32 blocks, so `phys_block_count` is 32, and
`pmm_free_available_memory` clears bit 32, which was set in the memory behind the
bitmap. -/
theorem C17_clears_bit_past_count :
    (init_phase2 (stdConfig 0 0 0)
      (memOf 0x9000 24 [mkEntry 0 0x10000 1, mkEntry 0x20000 0x10000 1])
      (fun _ => 0xFFFFFFFF) (mbAt 2) bootState).phys_block_count = 32 ∧
    bitmap_test (init_phase2 (stdConfig 0 0 0)
      (memOf 0x9000 24 [mkEntry 0 0x10000 1, mkEntry 0x20000 0x10000 1])
      (fun _ => 0xFFFFFFFF) (mbAt 2) bootState).phys_memory_bitmap 32 = true ∧
    (pmm_free_available_memory 4096 4
        (memOf 0x9000 24 [mkEntry 0 0x10000 1, mkEntry 0x20000 0x10000 1]) (mbAt 2) 2
        (init_phase2 (stdConfig 0 0 0)
          (memOf 0x9000 24 [mkEntry 0 0x10000 1, mkEntry 0x20000 0x10000 1])
          (fun _ => 0xFFFFFFFF) (mbAt 2) bootState)).map
      (fun s => (s.phys_block_count, bitmap_test s.phys_memory_bitmap 32)) =
      some (32, false) := by
  refine ⟨by decide, by decide, by decide⟩

/-! ## The stages of `pmm_init`, bit by bit -/

theorem pmm_alloc_chunk_fields (bs : Nat) (s : PmmState) (base_addr length : Nat)
    (hlen : length / bs < 2 ^ 31) (hu : s.phys_used_block_count < 2 ^ 32) :
    (pmm_alloc_chunk bs s base_addr length).phys_used_block_count =
      (s.phys_used_block_count + (length / bs + 1) * (2 ^ 32 - 1)) % 2 ^ 32 ∧
    (pmm_alloc_chunk bs s base_addr length).phys_block_count = s.phys_block_count ∧
    (pmm_alloc_chunk bs s base_addr length).phys_memory_bitmap_addr =
      s.phys_memory_bitmap_addr := by
  rw [pmm_alloc_chunk_eq bs s base_addr length hlen]
  exact alloc_chunk_loop_fields _ _ s hu

/-- The bits after `pmm_alloc_chunk`, for a range that stays below bit `2^31`: the bits
of `length / bs + 1` blocks from block `base_addr / bs` on are set, the others are as
before. -/
theorem pmm_alloc_chunk_test (bs : Nat) (s : PmmState) (base_addr length k : Nat)
    (hlen : length / bs < 2 ^ 31) (hb : base_addr / bs + (length / bs + 1) ≤ 2 ^ 31) :
    bitmap_test (pmm_alloc_chunk bs s base_addr length).phys_memory_bitmap (k : Int) =
      (decide (base_addr / bs ≤ k ∧ k < base_addr / bs + (length / bs + 1)) ||
        bitmap_test s.phys_memory_bitmap (k : Int)) := by
  rw [pmm_alloc_chunk_bitmap bs s base_addr length hlen]
  by_cases h : base_addr / bs ≤ k ∧ k < base_addr / bs + (length / bs + 1)
  · rw [alloc_blocks_loop_in _ _ _ k hb h.1 h.2, decide_eq_true h]
    rfl
  · rw [alloc_blocks_loop_out _ _ _ k (by omega) h, decide_eq_false h]
    rfl

theorem pmm_alloc_chunk_lt (bs : Nat) (s : PmmState) (base_addr length : Nat)
    (h : ∀ w, s.phys_memory_bitmap w < 2 ^ 32) (w : Nat) :
    (pmm_alloc_chunk bs s base_addr length).phys_memory_bitmap w < 2 ^ 32 := by
  unfold pmm_alloc_chunk
  simp only
  split
  · have hbm : (alloc_chunk_loop ((toInt32 (length / bs)).toNat + 1)
        (toInt32 (base_addr / bs)) s).phys_memory_bitmap =
        alloc_blocks_loop (toInt32 (base_addr / bs)) 0 ((toInt32 (length / bs)).toNat + 1)
          s.phys_memory_bitmap :=
      alloc_chunk_loop_bitmap (base_addr / bs) ((toInt32 (length / bs)).toNat + 1) 0 s
    rw [hbm]
    exact alloc_blocks_loop_lt _ _ _ _ h w
  · exact h w

theorem pmm_free_chunk_lt (bs : Nat) (s : PmmState) (base_addr length : Nat)
    (h : ∀ w, s.phys_memory_bitmap w < 2 ^ 32) (w : Nat) :
    (pmm_free_chunk bs s base_addr length).phys_memory_bitmap w < 2 ^ 32 := by
  rw [pmm_free_chunk_bitmap]
  exact free_blocks_loop_lt _ _ _ _ h w

/-- A 32-bit word of the bitmap is determined by its 32 bits. -/
theorem word_eq_of_bits (bm : Nat → Nat) (w v : Nat) (hw : bm w < 2 ^ 32) (hv : v < 2 ^ 32)
    (h : ∀ j, j < 32 → bitmap_test bm ((32 * w + j : Nat) : Int) = v.testBit j) :
    bm w = v := by
  apply Nat.eq_of_testBit_eq
  intro j
  by_cases hj : j < 32
  · rw [← h j hj, bitmap_test_word bm w j hj]
  · have hpow : 2 ^ 32 ≤ 2 ^ j := Nat.pow_le_pow_right (by decide) (by omega)
    rw [Nat.testBit_lt_two_pow (Nat.lt_of_lt_of_le hw hpow),
      Nat.testBit_lt_two_pow (Nat.lt_of_lt_of_le hv hpow)]


theorem free_step_usable (bs : Nat) (s : PmmState) (e : multiboot_memory_map_entry)
    (h : e.type = 1) : free_step bs s e = pmm_free_chunk bs s e.addr e.len := by
  unfold free_step
  exact if_pos h

theorem free_step_other (bs : Nat) (s : PmmState) (e : multiboot_memory_map_entry)
    (h : e.type ≠ 1) : free_step bs s e = s := by
  unfold free_step
  exact if_neg h

theorem pmm_free_chunk_addr (bs : Nat) (s : PmmState) (base_addr length : Nat)
    (hu : s.phys_used_block_count < 2 ^ 32) :
    (pmm_free_chunk bs s base_addr length).phys_memory_bitmap_addr =
      s.phys_memory_bitmap_addr := by
  unfold pmm_free_chunk
  exact (free_chunk_loop_fields _ _ s hu).2.2

/-- Bit `k` after `bitmap_set(0)`. -/
theorem bitmap_test_set_zero (bm : Nat → Nat) (k : Nat) :
    bitmap_test (bitmap_set bm 0) (k : Int) = (decide (k = 0) || bitmap_test bm (k : Int)) :=
  bitmap_test_set bm 0 k

/-- A byte stored elsewhere leaves the word as it is. -/
theorem store_byte_other (base : Nat) (bm : Nat → Nat) (a b w : Nat)
    (h : ¬ (base ≤ a ∧ w = (a - base) / 4)) : store_byte base bm a b w = bm w := by
  unfold store_byte
  rw [if_neg h]

/-- A copy to addresses at or above `dest` leaves the words of the array that end at or
below `dest` as they are. -/
theorem memcpy_low (base : Nat) :
    ∀ (bytes : List Nat) (dest : Nat) (bm : Nat → Nat) (w : Nat), base ≤ dest →
      dest + bytes.length < 2 ^ 32 → 4 * w + 4 ≤ dest - base →
      memcpy base dest bytes bm w = bm w := by
  intro bytes
  induction bytes with
  | nil => intro dest bm w _ _ _; rfl
  | cons b rest ih =>
    intro dest bm w h1 h2 h3
    have hlen : (b :: rest).length = rest.length + 1 := rfl
    rw [hlen] at h2
    unfold memcpy
    rw [Nat.mod_eq_of_lt (by omega), ih (dest + 1) _ w (by omega) (by omega) (by omega)]
    exact store_byte_other base bm dest b w (by omega)

theorem memcpy_test_low (base dest : Nat) (bytes : List Nat) (bm : Nat → Nat) (k : Nat)
    (h1 : base ≤ dest) (h2 : dest + bytes.length < 2 ^ 32)
    (h3 : 4 * (k / 32) + 4 ≤ dest - base) :
    bitmap_test (memcpy base dest bytes bm) (k : Int) = bitmap_test bm (k : Int) := by
  rw [bitmap_test_eq, bitmap_test_eq, memcpy_low base bytes dest bm (k / 32) h1 h2 h3]

/-- The population count over `[0, n)` depends on the bits below `n` only. -/
theorem popcount_congr (bm bm' : Nat → Nat) :
    ∀ n, (∀ k : Nat, k < n → bitmap_test bm' (k : Int) = bitmap_test bm (k : Int)) →
      popcount bm' n = popcount bm n := by
  intro n
  induction n with
  | zero => intro _; rfl
  | succ n ih =>
    intro h
    unfold popcount
    rw [ih (fun k hk => h k (by omega)), h n (by omega)]

/-- The 16 MiB scenario up to the end of `pmm_free_available_memory`: 4096 blocks, 256 of
them counted as used, bit 0 and the bits of the reserved top MiB set. -/
theorem e2e_phase3 :
    ∃ s3 : PmmState,
      pmm_free_available_memory 4096 4 (memOf 0x9000 24 e2eMap) (mbAt 2) 2
        (init_phase2 e2eConfig (memOf 0x9000 24 e2eMap) (fun _ => 0) (mbAt 2) bootState) =
        some s3 ∧
      s3.phys_block_count = 4096 ∧ s3.phys_used_block_count = 256 ∧
      s3.phys_memory_bitmap_addr = 0x10000 ∧
      (∀ w, s3.phys_memory_bitmap w < 2 ^ 32) ∧
      popcount s3.phys_memory_bitmap 4096 = 257 ∧
      (∀ k : Nat, k < 4096 →
        bitmap_test s3.phys_memory_bitmap (k : Int) = (decide (k = 0) || decide (3840 ≤ k))) := by
  have hl : MapLayout e2eConfig (memOf 0x9000 24 e2eMap) (mbAt 2) e2eMap :=
    memOf_layout e2eConfig 0x9000 e2eMap (by decide) (by decide) (by decide)
  obtain ⟨S2, hS2⟩ : ∃ S2, S2 = init_phase2 e2eConfig (memOf 0x9000 24 e2eMap) (fun _ => 0)
    (mbAt 2) bootState := ⟨_, rfl⟩
  have h2c : S2.phys_block_count = 4096 := by rw [hS2]; decide
  have h2u : S2.phys_used_block_count = 4096 := by rw [hS2]; decide
  have h2a : S2.phys_memory_bitmap_addr = 0x10000 := by rw [hS2]; decide
  have h2bm : S2.phys_memory_bitmap = memset_ff (fun _ => 0) 512 := by rw [hS2]; rfl
  have h2bits : ∀ k : Nat, k < 4096 → bitmap_test S2.phys_memory_bitmap (k : Int) = true := by
    intro k hk
    rw [h2bm]
    exact memset_ff_test _ _ k (by omega)
  have h2lt : ∀ w, S2.phys_memory_bitmap w < 2 ^ 32 := by
    rw [h2bm]
    exact memset_ff_lt _ _ (fun _ => by decide)
  rw [← hS2]
  have hrun := pmm_free_available_memory_eq e2eConfig (memOf 0x9000 24 e2eMap) (mbAt 2)
    e2eMap hl 4096 2 (by decide) S2
  have hfold : List.foldl (free_step 4096) S2 e2eMap = pmm_free_chunk 4096 S2 0 0xF00000 := by
    unfold e2eMap
    rw [List.foldl_cons, List.foldl_cons, List.foldl_nil,
      free_step_usable 4096 S2 (mkEntry 0 0xF00000 1) rfl,
      free_step_other 4096 _ (mkEntry 0xF00000 0x100000 2) (by decide)]
    rfl
  have h4 : e2eConfig.size_field_size = 4 := rfl
  rw [hfold, h4] at hrun
  have hspec := pmm_free_chunk_spec 4096 S2 (mkEntry 0 0xF00000 1) (by omega) (by omega)
    (by rw [h2c]; simp only [mkEntry]; decide)
    (fun k _ hk2 => h2bits k (by
      have : (mkEntry 0 0xF00000 1).addr / 4096 + (mkEntry 0 0xF00000 1).len / 4096 = 3840 := by
        simp only [mkEntry]
      omega))
    (by rw [h2u, h2c, popcount_all _ _ h2bits])
  have hadr := pmm_free_chunk_addr 4096 S2 0 0xF00000 (by omega)
  have ea : (mkEntry 0 0xF00000 1).addr = 0 := rfl
  have el : (mkEntry 0 0xF00000 1).len = 0xF00000 := rfl
  have e1 : (0 : Nat) / 4096 = 0 := by decide
  have e2 : (0xF00000 : Nat) / 4096 = 3840 := by decide
  rw [ea, el, e1, e2, h2c, h2u] at hspec
  obtain ⟨F, hF⟩ : ∃ F, F = pmm_free_chunk 4096 S2 0 0xF00000 := ⟨_, rfl⟩
  have hFlt : ∀ w, F.phys_memory_bitmap w < 2 ^ 32 := by
    rw [hF]
    exact pmm_free_chunk_lt 4096 S2 0 0xF00000 h2lt
  rw [← hF] at hspec hrun hadr
  obtain ⟨f1, f2, f3, f4⟩ := hspec
  refine ⟨{ F with phys_memory_bitmap := bitmap_set F.phys_memory_bitmap 0 },
    hrun, f1, ?_, ?_, ?_, ?_, ?_⟩
  · show F.phys_used_block_count = 256
    omega
  · show F.phys_memory_bitmap_addr = 0x10000
    rw [hadr, h2a]
  · intro w
    show bitmap_set F.phys_memory_bitmap 0 w < 2 ^ 32
    exact bitmap_set_lt _ _ hFlt w
  · show popcount (bitmap_set F.phys_memory_bitmap 0) 4096 = 257
    have hpc := popcount_run F.phys_memory_bitmap (bitmap_set F.phys_memory_bitmap 0) 0 1
      (by
        intro k hk1 hk2
        have hk : k = 0 := by omega
        subst hk
        refine ⟨by rw [bitmap_test_set_zero]; rfl, ?_⟩
        cases hb : bitmap_test F.phys_memory_bitmap ((0 : Nat) : Int)
        · rfl
        · have := ((f4 0).1 hb).2
          omega)
      (by
        intro k hk
        have : k ≠ 0 := by omega
        rw [bitmap_test_set_zero, decide_eq_false this]
        rfl) 4096
    rw [hpc, ← f2]
    omega
  · intro k hk
    show bitmap_test (bitmap_set F.phys_memory_bitmap 0) (k : Int) = _
    rw [bitmap_test_set_zero]
    by_cases h0 : k = 0
    · simp [h0]
    · by_cases h1 : 3840 ≤ k
      · have := (f4 k).2 ⟨h2bits k hk, by omega⟩
        simp [h0, h1, this]
      · have : ¬ bitmap_test F.phys_memory_bitmap (k : Int) = true :=
          fun h => ((f4 k).1 h).2 (by omega)
        simp [h0, h1, this]

/-- The 16 MiB scenario through the two `pmm_alloc_chunk` calls of `pmm_init`. -/
theorem e2e_phase4 (s3 : PmmState)
    (h3c : s3.phys_block_count = 4096) (h3u : s3.phys_used_block_count = 256)
    (h3a : s3.phys_memory_bitmap_addr = 0x10000)
    (h3lt : ∀ w, s3.phys_memory_bitmap w < 2 ^ 32)
    (h3pc : popcount s3.phys_memory_bitmap 4096 = 257)
    (h3bits : ∀ k : Nat, k < 4096 →
      bitmap_test s3.phys_memory_bitmap (k : Int) = (decide (k = 0) || decide (3840 ≤ k))) :
    (init_phase4 e2eConfig s3).phys_block_count = 4096 ∧
    (init_phase4 e2eConfig s3).phys_used_block_count = 237 ∧
    (init_phase4 e2eConfig s3).phys_memory_bitmap_addr = 0x10000 ∧
    (∀ w, (init_phase4 e2eConfig s3).phys_memory_bitmap w < 2 ^ 32) ∧
    popcount (init_phase4 e2eConfig s3).phys_memory_bitmap 4096 = 275 ∧
    (∀ k : Nat, k < 4096 →
      bitmap_test (init_phase4 e2eConfig s3).phys_memory_bitmap (k : Int) =
        (decide (k < 17) || decide (k = 31) || decide (k = 32) || decide (3840 ≤ k))) := by
  obtain ⟨S4, hS4⟩ : ∃ S4, S4 = pmm_alloc_chunk 4096 s3 0 0x10000 := ⟨_, rfl⟩
  have d1 : (0x10000 : Nat) / 4096 = 16 := by decide
  have d0 : (0 : Nat) / 4096 = 0 := by decide
  have hlen1 : (0x10000 : Nat) / 4096 < 2 ^ 31 := by decide
  obtain ⟨a1, a2, a5⟩ := pmm_alloc_chunk_fields 4096 s3 0 0x10000 hlen1 (by omega)
  have a3 := fun k => pmm_alloc_chunk_test 4096 s3 0 0x10000 k hlen1 (by decide)
  have a4 := pmm_alloc_chunk_lt 4096 s3 0 0x10000 h3lt
  rw [← hS4, d1, h3u] at a1
  rw [← hS4, h3c] at a2
  rw [← hS4, h3a] at a5
  rw [← hS4] at a4
  simp only [← hS4, d1, d0] at a3
  have h4u : S4.phys_used_block_count = 239 := by rw [a1]; decide
  have h4bits : ∀ k : Nat, k < 4096 →
      bitmap_test S4.phys_memory_bitmap (k : Int) = (decide (k < 17) || decide (3840 ≤ k)) := by
    intro k hk
    rw [a3 k, h3bits k hk]
    rw [Bool.eq_iff_iff]
    simp only [Bool.or_eq_true, decide_eq_true_eq]
    omega
  have h4pc : popcount S4.phys_memory_bitmap 4096 = 273 := by
    have hpc := popcount_run s3.phys_memory_bitmap S4.phys_memory_bitmap 1 16
      (by
        intro k hk1 hk2
        rw [h4bits k (by omega), h3bits k (by omega)]
        have h1 : k < 17 := by omega
        have h2 : ¬ 3840 ≤ k := by omega
        have h0 : ¬ k = 0 := by omega
        simp [h1, h2, h0])
      (by
        intro k hk
        rw [a3 k]
        by_cases h0 : k = 0
        · subst h0
          rw [h3bits 0 (by decide)]
          simp
        · have h1 : ¬ (0 ≤ k ∧ k < 0 + (16 + 1)) := by omega
          rw [decide_eq_false h1, Bool.false_or]) 4096
    rw [hpc, h3pc]
    decide
  have h4w : S4.phys_memory_bitmap 0 = 0x1FFFF := by
    apply word_eq_of_bits _ 0 _ (a4 0) (by decide)
    intro j hj
    rw [Nat.mul_zero, Nat.zero_add, h4bits j (by omega),
      show (0x1FFFF : Nat) = 2 ^ 17 - 1 from rfl, Nat.testBit_two_pow_sub_one]
    have h2 : ¬ 3840 ≤ j := by omega
    simp [h2]
  have hinit : init_phase4 e2eConfig s3 =
      { pmm_alloc_chunk 4096 S4 (S4.phys_memory_bitmap 0) S4.phys_block_count with
        kernel_phys_map_start :=
          (pmm_alloc_chunk 4096 S4 (S4.phys_memory_bitmap 0)
            S4.phys_block_count).phys_memory_bitmap_addr
        kernel_phys_map_end :=
          ((pmm_alloc_chunk 4096 S4 (S4.phys_memory_bitmap 0)
              S4.phys_block_count).phys_memory_bitmap_addr +
            (pmm_alloc_chunk 4096 S4 (S4.phys_memory_bitmap 0)
              S4.phys_block_count).phys_block_count / 8) % 2 ^ 32 } := by
    rw [hS4]
    rfl
  rw [hinit, h4w, a2]
  obtain ⟨S5, hS5⟩ : ∃ S5, S5 = pmm_alloc_chunk 4096 S4 0x1FFFF 4096 := ⟨_, rfl⟩
  have d2 : (4096 : Nat) / 4096 = 1 := by decide
  have d3 : (0x1FFFF : Nat) / 4096 = 31 := by decide
  have hlen2 : (4096 : Nat) / 4096 < 2 ^ 31 := by decide
  obtain ⟨b1, b2, b5⟩ := pmm_alloc_chunk_fields 4096 S4 0x1FFFF 4096 hlen2 (by omega)
  have b3 := fun k => pmm_alloc_chunk_test 4096 S4 0x1FFFF 4096 k hlen2 (by decide)
  have b4 := pmm_alloc_chunk_lt 4096 S4 0x1FFFF 4096 a4
  rw [← hS5, d2, h4u] at b1
  rw [← hS5, a2] at b2
  rw [← hS5, a5] at b5
  rw [← hS5] at b4
  simp only [← hS5, d2, d3] at b3
  rw [← hS5]
  have h5bits : ∀ k : Nat, k < 4096 → bitmap_test S5.phys_memory_bitmap (k : Int) =
      (decide (k < 17) || decide (k = 31) || decide (k = 32) || decide (3840 ≤ k)) := by
    intro k hk
    rw [b3 k, h4bits k hk]
    rw [Bool.eq_iff_iff]
    simp only [Bool.or_eq_true, decide_eq_true_eq]
    omega
  refine ⟨b2, ?_, b5, b4, ?_, h5bits⟩
  · show S5.phys_used_block_count = 237
    rw [b1]
    decide
  · show popcount S5.phys_memory_bitmap 4096 = 275
    have hpc := popcount_run S4.phys_memory_bitmap S5.phys_memory_bitmap 31 2
      (by
        intro k hk1 hk2
        rw [h5bits k (by omega), h4bits k (by omega)]
        have h1 : ¬ k < 17 := by omega
        have h2 : ¬ 3840 ≤ k := by omega
        have h3 : k = 31 ∨ k = 32 := by omega
        rcases h3 with h3 | h3 <;> simp [h3])
      (by
        intro k hk
        rw [b3 k]
        have h1 : ¬ (31 ≤ k ∧ k < 31 + (1 + 1)) := by omega
        rw [decide_eq_false h1, Bool.false_or]) 4096
    rw [hpc, h4pc]
    decide

theorem pmm_init_of_phase3 (c : BootConfig) (mem : Nat → multiboot_memory_map_entry)
    (ram : Nat → Nat) (mb : multiboot_info) (fuel : Nat) (s s3 : PmmState)
    (h : pmm_free_available_memory c.PHYS_BLOCK_SIZE c.size_field_size mem mb fuel
      (init_phase2 c mem ram mb s) = some s3) :
    pmm_init c mem ram mb fuel s = some (pmm_test c.PHYS_BLOCK_SIZE (init_phase4 c s3)) := by
  rw [pmm_init_eq, h]

/-- C14 at the scenario of the claim: 4096-byte blocks, 15 MiB usable from address 0 and
1 MiB reserved above, a 64 KiB kernel at address 0 and the bitmap (512 bytes, one block)
right after it.  `pmm_init` returns with `phys_block_count = 4096`, but
`phys_used_block_count` is 238, not `(1 MiB + 64 KiB) / 4 KiB + 1 + 1 = 274`, and it
is not the number of set bits over `[0, 4096)` either, which is 276. -/
theorem C14_end_to_end_count :
    ∃ s', pmm_init e2eConfig (memOf 0x9000 24 e2eMap) (fun _ => 0) (mbAt 2) 2 bootState =
        some s' ∧
      s'.phys_block_count = 4096 ∧
      s'.phys_used_block_count = 238 ∧
      popcount s'.phys_memory_bitmap 4096 = 276 ∧
      (0x100000 + 0x10000) / 4096 + 1 + 1 = 274 := by
  obtain ⟨s3, hrun, h3c, h3u, h3a, h3lt, h3pc, h3bits⟩ := e2e_phase3
  obtain ⟨c6, u6, a6, lt6, pc6, bits6⟩ := e2e_phase4 s3 h3c h3u h3a h3lt h3pc h3bits
  have hinit := pmm_init_of_phase3 e2eConfig (memOf 0x9000 24 e2eMap) (fun _ => 0) (mbAt 2) 2
    bootState s3 hrun
  obtain ⟨S6, hS6⟩ : ∃ S6, S6 = init_phase4 e2eConfig s3 := ⟨_, rfl⟩
  have hbs : e2eConfig.PHYS_BLOCK_SIZE = 4096 := rfl
  rw [← hS6] at c6 u6 a6 lt6 pc6 bits6 hinit
  rw [hbs] at hinit
  have hwf : S6.WF := ⟨lt6, by omega, by omega⟩
  have hv : toInt32 17 = ((17 : Nat) : Int) := by decide
  have hfind : pmm_find_free_block S6 = toInt32 17 := by
    apply pmm_find_free_block_eq S6 (by omega) 17 (by rw [c6]; decide)
    · rw [bits6 17 (by decide)]
      decide
    · intro k hk
      rw [bits6 k (by omega)]
      simp only [Bool.or_eq_true, decide_eq_true_eq]
      omega
  have halloc := pmm_alloc_block_ok 4096 S6 hwf (by omega) 17 (by decide) hfind
  have hdest : (17 * 4096) % 2 ^ 32 = 0x11000 := by decide
  rw [hv, hdest] at halloc
  have htest : pmm_test 4096 S6 =
      { S6 with
        phys_memory_bitmap := memcpy 0x10000 0x11000 hello_str
          (bitmap_set S6.phys_memory_bitmap ((17 : Nat) : Int))
        phys_used_block_count := (S6.phys_used_block_count + 1) % 2 ^ 32 } := by
    unfold pmm_test
    rw [halloc]
    simp only [a6]
  rw [htest] at hinit
  have hcopy : ∀ k : Nat, k < 4096 →
      bitmap_test (memcpy 0x10000 0x11000 hello_str
        (bitmap_set S6.phys_memory_bitmap ((17 : Nat) : Int))) (k : Int) =
      bitmap_test (bitmap_set S6.phys_memory_bitmap ((17 : Nat) : Int)) (k : Int) := by
    intro k hk
    exact memcpy_test_low _ _ _ _ k (by decide) (by decide) (by omega)
  refine ⟨_, hinit, c6, ?_, ?_, by decide⟩
  · show (S6.phys_used_block_count + 1) % 2 ^ 32 = 238
    rw [u6]
    decide
  · show popcount (memcpy 0x10000 0x11000 hello_str
      (bitmap_set S6.phys_memory_bitmap ((17 : Nat) : Int))) 4096 = 276
    rw [popcount_congr _ _ 4096 hcopy]
    have hpc := popcount_run S6.phys_memory_bitmap
      (bitmap_set S6.phys_memory_bitmap ((17 : Nat) : Int)) 17 1
      (by
        intro k hk1 hk2
        have hk : k = 17 := by omega
        subst hk
        refine ⟨by rw [bitmap_test_set]; simp, ?_⟩
        rw [bits6 17 (by decide)]
        decide)
      (by
        intro k hk
        have : k ≠ 17 := by omega
        rw [bitmap_test_set, decide_eq_false this]
        rfl) 4096
    rw [hpc, pc6]
    decide

end EOS
